import Mathlib

/-!
Verification development for the pluck HTML extraction library.

The definitions below are a shallow embedding of the TypeScript sources:
the XPath-subset expression parser (`parseXPath`, `parseStep`,
`parsePredicates`, `parsePredicateContent`, `splitUnion`,
`splitByOperator`, `findMatchingBracket`), the axis/predicate evaluator
(`evaluateXPath`, `evaluateStep`, `getCandidates`, `filterByNodeTest`,
`applyPredicates`, `evaluatePredicate`), the pseudo-element translator
(`parseXPathPseudo`, `extractValue`), the Selector result abstraction
(`Sel`, `selGetall`, `selGet`, `selXpath`, `selHtml`, `selOuterHtml`)
and the regex projection helper (`extractRegex`).

Strings are embedded as `List Char` (`Str`).  JavaScript loops are
embedded either as structural/well-founded recursion or, where the
source's own termination is the property under study, as fueled
functions returning `Option` (fuel exhaustion is the only `none`).
The document tree of the external HTML provider is modelled as an
inductive tree; node identity is modelled by paths from the root,
matching the reference-identity semantics of the source (`Set<Node>`,
`Array.indexOf`).
-/

namespace Pluck

/-- Characters of a JavaScript string. -/
abbrev Str := List Char

/-- JS `\s` (whitespace) approximation used by `trim`, `\s*` matchers. -/
def isWs (c : Char) : Bool := c.isWhitespace

/-- JS `[\w-]`: word characters plus hyphen, as used by the parser's
name/attribute regular expressions. -/
def isWordChar (c : Char) : Bool :=
  c.isAlphanum || c = '_' || c = '-'

/-- JS `String.prototype.trim`. -/
def trimStr (s : Str) : Str :=
  ((s.dropWhile isWs).reverse.dropWhile isWs).reverse

/-- JS `parseInt` on a digit string (the parser only applies it to
matches of `(\d+)`). -/
def digitsToNat (s : Str) : Nat :=
  s.foldl (fun acc c => acc * 10 + (c.toNat - '0'.toNat)) 0

theorem length_dropWhile_le (p : Char → Bool) (s : Str) :
    (s.dropWhile p).length ≤ s.length := by
  induction s with
  | nil => simp [List.dropWhile]
  | cons c rest ih =>
    simp only [List.dropWhile]
    split
    · simp; omega
    · simp

theorem trimStr_length_le (s : Str) : (trimStr s).length ≤ s.length := by
  have h1 : (s.dropWhile isWs).length ≤ s.length := length_dropWhile_le isWs s
  have h2 : ((s.dropWhile isWs).reverse.dropWhile isWs).length ≤
      (s.dropWhile isWs).reverse.length :=
    length_dropWhile_le isWs _
  simp only [trimStr, List.length_reverse] at *
  omega

/-! ## XPath step and predicate data model (src: xpath module, lines 6–58) -/

/-- `Step.axis` values. -/
inductive Axis where
  | child | descendant | self | attribute | parent | ancestor
  | followingSibling | precedingSibling | following | preceding
  deriving DecidableEq, Repr

/-- Node tests. -/
inductive NodeTest where
  | name (name : Str)
  | any
  | text
  | node
  deriving DecidableEq, Repr

/-- Comparison operators of `position()` / `count()` / `string-length()`
predicates. -/
inductive CmpOp where
  | lt | gt | le | ge | eq
  deriving DecidableEq, Repr

/-- The tagged predicate variant (source `type Predicate`). -/
inductive Predicate where
  | position (index : Nat)
  | attrExists (name : Str)
  | attrEquals (name : Str) (value : Str)
  | textEquals (value : Str)
  | textContains (value : Str)
  | attrContains (name : Str) (value : Str)
  | attrStartsWith (name : Str) (value : Str)
  | attrEndsWith (name : Str) (value : Str)
  | textStartsWith (value : Str)
  | textEndsWith (value : Str)
  | hasChild (tagName : Str)
  | not (inner : Predicate)
  | and (left : Predicate) (right : Predicate)
  | or (left : Predicate) (right : Predicate)
  | attrNotEquals (name : Str) (value : Str)
  | textNotEquals (value : Str)
  | normalizeSpaceEquals (value : Str)
  | last
  | positionCompare (op : CmpOp) (value : Nat)
  | countCompare (tagName : Str) (op : CmpOp) (value : Nat)
  | stringLengthCompare (op : CmpOp) (value : Nat)
  | substringEquals (start : Nat) (len : Option Nat) (value : Str)
  | substringBeforeEquals (delimiter : Str) (value : Str)
  | substringAfterEquals (delimiter : Str) (value : Str)
  | translateEquals (fromChars : Str) (toChars : Str) (value : Str)
  deriving DecidableEq, Repr

/-- One parsed traversal step. -/
structure Step where
  axis : Axis
  nodeTest : NodeTest
  predicates : List Predicate
  deriving DecidableEq, Repr

/-! ## Quote/bracket-aware splitting (src: `splitUnion`, `splitByOperator`,
`findMatchingBracket`) -/

/-- Loop body state of `splitUnion`: scan the expression, tracking
bracket/paren depth (as `Int`, JS `depth--` may go negative) and an
open string quote; split on `|` at depth 0 outside strings.
Structural recursion over the remaining characters. -/
def splitUnionAux (parts : List Str) (current : Str) (depth : Int)
    (inString : Option Char) : Str → List Str
  | [] => if trimStr current ≠ [] then parts ++ [trimStr current] else parts
  | c :: rest =>
    match inString with
    | some q =>
      splitUnionAux parts (current ++ [c]) depth
        (if c = q then none else some q) rest
    | none =>
      if c = '"' ∨ c = '\'' then
        splitUnionAux parts (current ++ [c]) depth (some c) rest
      else if c = '(' ∨ c = '[' then
        splitUnionAux parts (current ++ [c]) (depth + 1) none rest
      else if c = ')' ∨ c = ']' then
        splitUnionAux parts (current ++ [c]) (depth - 1) none rest
      else if depth = 0 ∧ c = '|' then
        splitUnionAux (parts ++ [trimStr current]) [] depth none rest
      else
        splitUnionAux parts (current ++ [c]) depth none rest

/-- Source `splitUnion(expr)`: split an XPath expression on `|` at
bracket/quote depth 0. -/
def splitUnion (expr : Str) : List Str :=
  splitUnionAux [] [] 0 none expr

/-- Loop of `findMatchingBracket`: returns the index of the `]`
closing the bracket opened at depth 0, skipping quoted strings;
`none` when no such `]` exists (source returns `-1`). -/
def findMatchingBracketAux (i : Nat) (depth : Int) (inString : Option Char) :
    Str → Option Nat
  | [] => none
  | c :: rest =>
    match inString with
    | some q =>
      findMatchingBracketAux (i + 1) depth (if c = q then none else some q) rest
    | none =>
      if c = '"' ∨ c = '\'' then
        findMatchingBracketAux (i + 1) depth (some c) rest
      else if c = '[' then
        findMatchingBracketAux (i + 1) (depth + 1) none rest
      else if c = ']' then
        if depth - 1 = 0 then some i
        else findMatchingBracketAux (i + 1) (depth - 1) none rest
      else
        findMatchingBracketAux (i + 1) depth none rest

/-- Source `findMatchingBracket(expr)`. -/
def findMatchingBracket (expr : Str) : Option Nat :=
  findMatchingBracketAux 0 0 none expr

/-- Loop body of `splitByOperator`: like `splitUnion` but splitting on a
multi-character operator (`" or "`, `" and "`) at depth 0; on a split
the scan advances past the whole operator (`i += operator.length - 1`
plus the loop increment).  The source is only invoked with non-empty
operators; for those the embedding consumes exactly `op.length`
characters at a split (the recursion consumes the head character and
then drops `op.length - 1` more). -/
def splitByOperatorAux (op : Str) (parts : List Str) (current : Str)
    (depth : Int) (inString : Option Char) : Str → List Str
  | [] => if trimStr current ≠ [] then parts ++ [trimStr current] else parts
  | c :: rest =>
    match inString with
    | some q =>
      splitByOperatorAux op parts (current ++ [c]) depth
        (if c = q then none else some q) rest
    | none =>
      if c = '"' ∨ c = '\'' then
        splitByOperatorAux op parts (current ++ [c]) depth (some c) rest
      else if c = '(' ∨ c = '[' then
        splitByOperatorAux op parts (current ++ [c]) (depth + 1) none rest
      else if c = ')' ∨ c = ']' then
        splitByOperatorAux op parts (current ++ [c]) (depth - 1) none rest
      else if depth = 0 ∧ op.isPrefixOf (c :: rest) then
        splitByOperatorAux op (parts ++ [trimStr current]) [] depth none
          (rest.drop (op.length - 1))
      else
        splitByOperatorAux op parts (current ++ [c]) depth none rest
termination_by s => s.length
decreasing_by
  all_goals simp_all
  all_goals omega

/-- Source `splitByOperator(content, operator)`. -/
def splitByOperator (content : Str) (op : Str) : List Str :=
  splitByOperatorAux op [] [] 0 none content

/-! ## Literal matchers for the predicate grammar

The source recognizes predicate bodies by matching them against ~20
regular-expression literals.  Each is embedded as an explicit matcher
over `Str`.  `\s*` becomes `skipWs`, `([\w-]+)` becomes `matchWord`,
`['"]([^'"]*)['"]` becomes `matchQuoted` (note the source pattern lets
the two quote characters differ), `(\d+)` becomes `matchDigits`. -/

/-- Convert a Lean string literal to `Str`. -/
def lit (s : String) : Str := s.toList

/-- `\s*`. -/
def skipWs (s : Str) : Str := s.dropWhile isWs

/-- `([\w-]+)`: greedy word match; `none` if empty. -/
def matchWord (s : Str) : Option (Str × Str) :=
  let w := s.takeWhile isWordChar
  if w = [] then none else some (w, s.drop w.length)

/-- `(\d+)`: greedy digit match; `none` if empty. -/
def matchDigits (s : Str) : Option (Nat × Str) :=
  let d := s.takeWhile Char.isDigit
  if d = [] then none else some (digitsToNat d, s.drop d.length)

/-- A fixed literal. -/
def matchLit (l : Str) (s : Str) : Option Str :=
  if l.isPrefixOf s then some (s.drop l.length) else none

/-- A single expected character. -/
def matchChar (c : Char) (s : Str) : Option Str :=
  match s with
  | c2 :: rest => if c2 = c then some rest else none
  | [] => none

/-- `['"]([^'"]*)['"]`: an opening quote (either kind), a possibly-empty
run of non-quote characters, and a closing quote (either kind — the
source pattern does not require them to match). -/
def matchQuoted (s : Str) : Option (Str × Str) :=
  match s with
  | c :: rest =>
    if c = '\'' ∨ c = '"' then
      let v := rest.takeWhile (fun c2 => ¬(c2 = '\'' ∨ c2 = '"'))
      match rest.drop v.length with
      | q :: rest2 => if q = '\'' ∨ q = '"' then some (v, rest2) else none
      | [] => none
    else none
  | [] => none

/-- `(?:text\(\)|\.)`: the alternation used as the string argument of the
text-function predicates, with the continuation after it. -/
def matchTextDotArg (s : Str) : Option Str :=
  match matchLit (lit "text()") s with
  | some r => some r
  | none => matchChar '.' s

/-- An operator alternation (`<|>|<=|>=` or with `=`) followed by
`\s*(\d+)`: alternatives are tried in source order with the digit
continuation, matching the regex engine's backtracking. -/
def matchCmpDigits (ops : List (Str × CmpOp)) (s : Str) : Option (CmpOp × Nat) :=
  match ops with
  | [] => none
  | (opLit, op) :: more =>
    match matchLit opLit s with
    | some r =>
      match matchDigits (skipWs r) with
      | some (n, _) => some (op, n)
      | none => matchCmpDigits more s
    | none => matchCmpDigits more s

/-- Operator alternation of `position()` comparisons: `(<|>|<=|>=)`. -/
def posCmpOps : List (Str × CmpOp) :=
  [(lit "<", .lt), (lit ">", .gt), (lit "<=", .le), (lit ">=", .ge)]

/-- Operator alternation of `count`/`string-length` comparisons:
`(<|>|<=|>=|=)`. -/
def eqCmpOps : List (Str × CmpOp) := posCmpOps ++ [(lit "=", .eq)]

/-- `^@([\w-]+)$` (attribute existence). -/
def matchAttrExists (c : Str) : Option Predicate :=
  match c with
  | '@' :: rest =>
    match matchWord rest with
    | some (w, r) => if r = [] then some (.attrExists w) else none
    | none => none
  | _ => none

/-- `^@([\w-]+)\s*=\s*['"]([^'"]*)['"]` (attribute equality; not
anchored at the end, trailing input is ignored). -/
def matchAttrEquals (c : Str) : Option Predicate :=
  match c with
  | '@' :: rest => do
    let (w, r) ← matchWord rest
    let r ← matchChar '=' (skipWs r)
    let (v, _) ← matchQuoted (skipWs r)
    some (.attrEquals w v)
  | _ => none

/-- `^@([\w-]+)\s*!=\s*['"]([^'"]*)['"]`. -/
def matchAttrNotEquals (c : Str) : Option Predicate :=
  match c with
  | '@' :: rest => do
    let (w, r) ← matchWord rest
    let r ← matchLit (lit "!=") (skipWs r)
    let (v, _) ← matchQuoted (skipWs r)
    some (.attrNotEquals w v)
  | _ => none

/-- `^text\(\)\s*=\s*['"]([^'"]*)['"]`. -/
def matchTextEquals (c : Str) : Option Predicate := do
  let r ← matchLit (lit "text()") c
  let r ← matchChar '=' (skipWs r)
  let (v, _) ← matchQuoted (skipWs r)
  some (.textEquals v)

/-- `^text\(\)\s*!=\s*['"]([^'"]*)['"]`. -/
def matchTextNotEquals (c : Str) : Option Predicate := do
  let r ← matchLit (lit "text()") c
  let r ← matchLit (lit "!=") (skipWs r)
  let (v, _) ← matchQuoted (skipWs r)
  some (.textNotEquals v)

/-- `^normalize-space\s*\((?:\.)?\)\s*=\s*['"]([^'"]*)['"]`. -/
def matchNormalizeSpace (c : Str) : Option Predicate := do
  let r ← matchLit (lit "normalize-space") c
  let r ← matchChar '(' (skipWs r)
  let r := match matchChar '.' r with | some r2 => r2 | none => r
  let r ← matchChar ')' r
  let r ← matchChar '=' (skipWs r)
  let (v, _) ← matchQuoted (skipWs r)
  some (.normalizeSpaceEquals v)

/-- `^position\(\)\s*(<|>|<=|>=)\s*(\d+)`. -/
def matchPositionCompare (c : Str) : Option Predicate := do
  let r ← matchLit (lit "position()") c
  let (op, n) ← matchCmpDigits posCmpOps (skipWs r)
  some (.positionCompare op n)

/-- `^count\s*\(\s*([\w-]+)\s*\)\s*(<|>|<=|>=|=)\s*(\d+)`. -/
def matchCountCompare (c : Str) : Option Predicate := do
  let r ← matchLit (lit "count") c
  let r ← matchChar '(' (skipWs r)
  let (w, r) ← matchWord (skipWs r)
  let r ← matchChar ')' (skipWs r)
  let (op, n) ← matchCmpDigits eqCmpOps (skipWs r)
  some (.countCompare w op n)

/-- `^string-length\s*\(\s*(?:text\(\)|\.|\s*)\s*\)\s*(<|>|<=|>=|=)\s*(\d+)`:
the argument may be `text()`, `.`, or empty. -/
def matchStringLength (c : Str) : Option Predicate := do
  let r ← matchLit (lit "string-length") c
  let r ← matchChar '(' (skipWs r)
  let r := skipWs r
  let r := match matchTextDotArg r with | some r2 => r2 | none => r
  let r ← matchChar ')' (skipWs r)
  let (op, n) ← matchCmpDigits eqCmpOps (skipWs r)
  some (.stringLengthCompare op n)

/-- `^substring\s*\(\s*(?:text\(\)|\.)\s*,\s*(\d+)(?:\s*,\s*(\d+))?\s*\)\s*=\s*['"]([^'"]*)['"]`. -/
def matchSubstring (c : Str) : Option Predicate := do
  let r ← matchLit (lit "substring") c
  let r ← matchChar '(' (skipWs r)
  let r ← matchTextDotArg (skipWs r)
  let r ← matchChar ',' (skipWs r)
  let (start, r) ← matchDigits (skipWs r)
  -- optional second numeric argument `(?:\s*,\s*(\d+))?`, with the
  -- regex falling back to the no-argument form when it cannot match
  let optLen : Option (Nat × Str) := do
    let r2 ← matchChar ',' (skipWs r)
    let (n, r3) ← matchDigits (skipWs r2)
    some (n, r3)
  let (len?, r) := match optLen with
    | some (n, r2) => ((some n : Option Nat), r2)
    | none => (none, r)
  let r ← matchChar ')' (skipWs r)
  let r ← matchChar '=' (skipWs r)
  let (v, _) ← matchQuoted (skipWs r)
  some (.substringEquals start len? v)

/-- `^substring-before\s*\(\s*(?:text\(\)|\.)\s*,\s*['"]([^'"]*)['"]\s*\)\s*=\s*['"]([^'"]*)['"]`. -/
def matchSubstringBefore (c : Str) : Option Predicate := do
  let r ← matchLit (lit "substring-before") c
  let r ← matchChar '(' (skipWs r)
  let r ← matchTextDotArg (skipWs r)
  let r ← matchChar ',' (skipWs r)
  let (d, r) ← matchQuoted (skipWs r)
  let r ← matchChar ')' (skipWs r)
  let r ← matchChar '=' (skipWs r)
  let (v, _) ← matchQuoted (skipWs r)
  some (.substringBeforeEquals d v)

/-- `^substring-after\s*\(\s*(?:text\(\)|\.)\s*,\s*['"]([^'"]*)['"]\s*\)\s*=\s*['"]([^'"]*)['"]`. -/
def matchSubstringAfter (c : Str) : Option Predicate := do
  let r ← matchLit (lit "substring-after") c
  let r ← matchChar '(' (skipWs r)
  let r ← matchTextDotArg (skipWs r)
  let r ← matchChar ',' (skipWs r)
  let (d, r) ← matchQuoted (skipWs r)
  let r ← matchChar ')' (skipWs r)
  let r ← matchChar '=' (skipWs r)
  let (v, _) ← matchQuoted (skipWs r)
  some (.substringAfterEquals d v)

/-- `^translate\s*\(\s*(?:text\(\)|\.)\s*,\s*['"]([^'"]*)['"]\s*,\s*['"]([^'"]*)['"]\s*\)\s*=\s*['"]([^'"]*)['"]`. -/
def matchTranslate (c : Str) : Option Predicate := do
  let r ← matchLit (lit "translate") c
  let r ← matchChar '(' (skipWs r)
  let r ← matchTextDotArg (skipWs r)
  let r ← matchChar ',' (skipWs r)
  let (f, r) ← matchQuoted (skipWs r)
  let r ← matchChar ',' (skipWs r)
  let (t, r) ← matchQuoted (skipWs r)
  let r ← matchChar ')' (skipWs r)
  let r ← matchChar '=' (skipWs r)
  let (v, _) ← matchQuoted (skipWs r)
  some (.translateEquals f t v)

/-- `^contains\s*\(\s*@([\w-]+)\s*,\s*['"]([^'"]*)['"]\s*\)`. -/
def matchContainsAttr (c : Str) : Option Predicate := do
  let r ← matchLit (lit "contains") c
  let r ← matchChar '(' (skipWs r)
  let r ← matchChar '@' (skipWs r)
  let (w, r) ← matchWord r
  let r ← matchChar ',' (skipWs r)
  let (v, r) ← matchQuoted (skipWs r)
  let _ ← matchChar ')' (skipWs r)
  some (.attrContains w v)

/-- `^contains\s*\(\s*(?:text\(\)|\.)\s*,\s*['"]([^'"]*)['"]\s*\)`. -/
def matchContainsText (c : Str) : Option Predicate := do
  let r ← matchLit (lit "contains") c
  let r ← matchChar '(' (skipWs r)
  let r ← matchTextDotArg (skipWs r)
  let r ← matchChar ',' (skipWs r)
  let (v, r) ← matchQuoted (skipWs r)
  let _ ← matchChar ')' (skipWs r)
  some (.textContains v)

/-- `^starts-with\s*\(\s*@([\w-]+)\s*,\s*['"]([^'"]*)['"]\s*\)`. -/
def matchStartsWithAttr (c : Str) : Option Predicate := do
  let r ← matchLit (lit "starts-with") c
  let r ← matchChar '(' (skipWs r)
  let r ← matchChar '@' (skipWs r)
  let (w, r) ← matchWord r
  let r ← matchChar ',' (skipWs r)
  let (v, r) ← matchQuoted (skipWs r)
  let _ ← matchChar ')' (skipWs r)
  some (.attrStartsWith w v)

/-- `^starts-with\s*\(\s*(?:text\(\)|\.)\s*,\s*['"]([^'"]*)['"]\s*\)`. -/
def matchStartsWithText (c : Str) : Option Predicate := do
  let r ← matchLit (lit "starts-with") c
  let r ← matchChar '(' (skipWs r)
  let r ← matchTextDotArg (skipWs r)
  let r ← matchChar ',' (skipWs r)
  let (v, r) ← matchQuoted (skipWs r)
  let _ ← matchChar ')' (skipWs r)
  some (.textStartsWith v)

/-- `^ends-with\s*\(\s*@([\w-]+)\s*,\s*['"]([^'"]*)['"]\s*\)`. -/
def matchEndsWithAttr (c : Str) : Option Predicate := do
  let r ← matchLit (lit "ends-with") c
  let r ← matchChar '(' (skipWs r)
  let r ← matchChar '@' (skipWs r)
  let (w, r) ← matchWord r
  let r ← matchChar ',' (skipWs r)
  let (v, r) ← matchQuoted (skipWs r)
  let _ ← matchChar ')' (skipWs r)
  some (.attrEndsWith w v)

/-- `^ends-with\s*\(\s*(?:text\(\)|\.)\s*,\s*['"]([^'"]*)['"]\s*\)`. -/
def matchEndsWithText (c : Str) : Option Predicate := do
  let r ← matchLit (lit "ends-with") c
  let r ← matchChar '(' (skipWs r)
  let r ← matchTextDotArg (skipWs r)
  let r ← matchChar ',' (skipWs r)
  let (v, r) ← matchQuoted (skipWs r)
  let _ ← matchChar ')' (skipWs r)
  some (.textEndsWith v)

/-- `^([\w-]+)$` (bare identifier: child-element existence). -/
def matchChildTag (c : Str) : Option Predicate :=
  match matchWord c with
  | some (w, r) => if r = [] then some (.hasChild w) else none
  | none => none

/-- `^not\s*\(\s*(.+)\s*\)$`: returns the captured inner predicate body
up to trimming.  The greedy `(.+)` (which cannot cross a newline)
together with the anchors means: the body must end in `)`, and the
whitespace-trimmed middle must be non-empty and newline-free; the
recursive `parsePredicateContent` call re-trims the capture, so the
trimmed middle is returned. -/
def matchNotContent (c : Str) : Option Str :=
  match matchLit (lit "not") c with
  | none => none
  | some r1 =>
    match matchChar '(' (skipWs r1) with
    | none => none
    | some r2 =>
      match r2.getLast? with
      | some ')' =>
        let core := trimStr r2.dropLast
        if core ≠ [] ∧ ¬ core.contains '\n' then some core else none
      | _ => none

/-- The non-recursive predicate forms, tried in source order
(attr-exists through the bare-identifier child test); `none` is the
source's `return null` fallback for unrecognized bodies. -/
def leafMatchers : List (Str → Option Predicate) :=
  [matchAttrExists, matchAttrEquals, matchAttrNotEquals,
   matchTextEquals, matchTextNotEquals, matchNormalizeSpace,
   fun c => if c = lit "last()" then some .last else none,
   matchPositionCompare, matchCountCompare, matchStringLength,
   matchSubstring, matchSubstringBefore, matchSubstringAfter,
   matchTranslate, matchContainsAttr, matchContainsText,
   matchStartsWithAttr, matchStartsWithText,
   matchEndsWithAttr, matchEndsWithText, matchChildTag]

def parseLeafPredicate (c : Str) : Option Predicate :=
  leafMatchers.findSome? (fun f => f c)

/-- The source's left fold over `or`/`and` parts: starting from the
first part's parse, each further part is combined only when both the
accumulator and the new parse are non-null (`if (result && right)`). -/
def combineParts (mk : Predicate → Predicate → Predicate)
    (first : Option Predicate) (rights : List (Option Predicate)) :
    Option Predicate :=
  rights.foldl
    (fun acc r =>
      match acc, r with
      | some a, some b => some (mk a b)
      | _, _ => acc)
    first

/-- Source `parsePredicateContent(content)`, fueled: the outer `none`
marks fuel exhaustion only (`parsePredicateContent_total` shows fuel
`content.length + 1` always suffices); `some none` is the source's
`null` result.  Checks follow source order: integer position, `or`
split, `and` split, `not(...)` (falling through when the inner body
parses to null), then the leaf forms. -/
def parsePredicateContentF : Nat → Str → Option (Option Predicate)
  | 0, _ => none
  | fuel + 1, content =>
    let c := trimStr content
    if c ≠ [] ∧ c.all Char.isDigit then
      some (some (.position (digitsToNat c)))
    else
      let orParts := splitByOperator c (lit " or ")
      if 1 < orParts.length then
        match orParts with
        | [] => some none
        | p :: ps =>
          match parsePredicateContentF fuel p with
          | none => none
          | some first =>
            match ps.mapM (parsePredicateContentF fuel) with
            | none => none
            | some rights => some (combineParts .or first rights)
      else
        let andParts := splitByOperator c (lit " and ")
        if 1 < andParts.length then
          match andParts with
          | [] => some none
          | p :: ps =>
            match parsePredicateContentF fuel p with
            | none => none
            | some first =>
              match ps.mapM (parsePredicateContentF fuel) with
              | none => none
              | some rights => some (combineParts .and first rights)
        else
          match matchNotContent c with
          | some inner =>
            match parsePredicateContentF fuel inner with
            | none => none
            | some (some p) => some (some (.not p))
            | some none => some (parseLeafPredicate c)
          | none => some (parseLeafPredicate c)

/-! ## Termination of the predicate parser

The source's recursion in `parsePredicateContent` is on the `or`/`and`
parts and the `not(...)` body, all strictly shorter than the input;
the lemmas below make that precise and show the fuel
`content.length + 1` always suffices. -/

theorem splitByOperatorAux_sum (op : Str) (parts : List Str)
    (current : Str) (depth : Int) (inString : Option Char) (s : Str) :
    (((splitByOperatorAux op parts current depth inString s).map
        List.length).sum
      + (splitByOperatorAux op parts current depth inString s).length
          * op.length)
    ≤ (parts.map List.length).sum + parts.length * op.length
      + current.length + s.length + op.length := by
  induction parts, current, depth, inString, s
    using splitByOperatorAux.induct op with
  | case1 parts current depth inString h =>
    rw [splitByOperatorAux.eq_def]
    simp only [h, ne_eq, not_false_eq_true, if_true]
    have := trimStr_length_le current
    simp only [List.map_append, List.sum_append, List.length_append,
      List.map_cons, List.map_nil, List.sum_cons, List.sum_nil,
      List.length_cons, List.length_nil, Nat.add_mul, Nat.one_mul,
      Nat.zero_mul, Nat.zero_add, Nat.add_zero]
    omega
  | case2 parts current depth inString h =>
    rw [splitByOperatorAux.eq_def]
    dsimp only
    split
    · next hc => exact absurd hc h
    · omega
  | case3 parts current depth c rest q ih =>
    rw [splitByOperatorAux.eq_def]
    simp only [dite_eq_ite] at ih
    simp only [List.length_append, List.length_cons, List.length_nil] at ih ⊢
    omega
  | case4 parts current depth c rest h1 ih =>
    rw [splitByOperatorAux.eq_def]
    dsimp only
    rw [if_pos h1]
    simp only [List.length_append, List.length_cons, List.length_nil] at ih ⊢
    omega
  | case5 parts current depth c rest h1 h2 ih =>
    rw [splitByOperatorAux.eq_def]
    dsimp only
    rw [if_neg h1, if_pos h2]
    simp only [List.length_append, List.length_cons, List.length_nil] at ih ⊢
    omega
  | case6 parts current depth c rest h1 h2 h3 ih =>
    rw [splitByOperatorAux.eq_def]
    dsimp only
    rw [if_neg h1, if_neg h2, if_pos h3]
    simp only [List.length_append, List.length_cons, List.length_nil] at ih ⊢
    omega
  | case7 parts current depth c rest h1 h2 h3 h4 ih =>
    rw [splitByOperatorAux.eq_def]
    dsimp only
    rw [if_neg h1, if_neg h2, if_neg h3, if_pos h4]
    refine ih.trans ?_
    have e4 := trimStr_length_le current
    have e5 : op.length ≤ (c :: rest).length :=
      (List.isPrefixOf_iff_prefix.mp h4.2).length_le
    simp only [List.length_cons] at e5
    simp only [List.map_append, List.sum_append, List.length_append,
      List.map_cons, List.sum_cons, List.map_nil, List.sum_nil,
      List.length_cons, List.length_nil, List.length_drop, Nat.add_mul,
      Nat.one_mul]
    omega
  | case8 parts current depth c rest h1 h2 h3 h4 ih =>
    rw [splitByOperatorAux.eq_def]
    dsimp only
    rw [if_neg h1, if_neg h2, if_neg h3, if_neg h4]
    simp only [List.length_append, List.length_cons, List.length_nil] at ih ⊢
    omega

theorem splitByOperator_part_length_lt {c op p : Str}
    (hop : 0 < op.length)
    (h2 : 2 ≤ (splitByOperator c op).length)
    (hp : p ∈ splitByOperator c op) :
    p.length < c.length := by
  have hsum := splitByOperatorAux_sum op [] [] 0 none c
  simp only [splitByOperator] at h2 hp
  have hmem : p.length ∈ ((splitByOperatorAux op [] [] 0 none c).map
      List.length) := List.mem_map_of_mem _ hp
  have hle : p.length ≤ ((splitByOperatorAux op [] [] 0 none c).map
      List.length).sum :=
    List.single_le_sum (fun _ _ => Nat.zero_le _) _ hmem
  simp at hsum
  have : 2 * op.length ≤ (splitByOperatorAux op [] [] 0 none c).length
      * op.length := Nat.mul_le_mul_right _ h2
  omega

theorem matchLit_some {l s r : Str} (h : matchLit l s = some r) :
    r = s.drop l.length ∧ l.length ≤ s.length := by
  simp only [matchLit] at h
  split at h
  · next hpre =>
    have : l <+: s := by
      exact List.isPrefixOf_iff_prefix.mp hpre
    exact ⟨(Option.some.injEq _ _).mp h |>.symm, this.length_le⟩
  · exact absurd h (by simp)

theorem matchChar_some {ch : Char} {s r : Str} (h : matchChar ch s = some r) :
    s = ch :: r := by
  match s with
  | [] => simp [matchChar] at h
  | c2 :: rest =>
    simp only [matchChar] at h
    split at h
    · next heq => simp_all
    · simp_all

theorem skipWs_length_le (s : Str) : (skipWs s).length ≤ s.length :=
  length_dropWhile_le isWs s

theorem matchNotContent_length {c inner : Str}
    (h : matchNotContent c = some inner) : inner.length < c.length := by
  unfold matchNotContent at h
  split at h
  · exact absurd h (by simp)
  · next r1 hr1 =>
    split at h
    · exact absurd h (by simp)
    · next r2 hr2 =>
      obtain ⟨hr1eq, hlen1⟩ := matchLit_some hr1
      have hr2eq := matchChar_some hr2
      split at h
      · next hlast =>
        simp only [ne_eq] at h
        split at h
        · next hcore =>
          have hinner : inner = trimStr r2.dropLast := by
            simpa using h.symm
          have h1 : (trimStr r2.dropLast).length ≤ r2.dropLast.length :=
            trimStr_length_le _
          have h2 : r2.dropLast.length = r2.length - 1 := by
            simp [List.length_dropLast]
          have h3 : r2 ≠ [] := by
            intro he; rw [he] at hlast; simp at hlast
          have h4 : 0 < r2.length := List.length_pos.mpr h3
          have h5 : (skipWs r1).length = r2.length + 1 := by
            rw [hr2eq]; simp
          have h6 : (skipWs r1).length ≤ r1.length := skipWs_length_le r1
          have h7 : r1.length = c.length - (lit "not").length := by
            rw [hr1eq]; simp
          have h8 : (lit "not").length = 3 := by decide
          subst hinner
          omega
        · exact absurd h (by simp)
      · exact absurd h (by simp)

theorem mapM_loop_isSome {α β : Type} (f : α → Option β) (l : List α)
    (h : ∀ x ∈ l, (f x).isSome) :
    ∀ acc : List β, (List.mapM.loop f l acc).isSome := by
  induction l with
  | nil => intro acc; simp [List.mapM.loop]
  | cons a l ih =>
    intro acc
    simp only [List.mapM.loop]
    obtain ⟨b, hb⟩ := Option.isSome_iff_exists.mp (h a (by simp))
    rw [hb]
    exact ih (fun x hx => h x (by simp [hx])) _

theorem mapM_option_isSome {α β : Type} (f : α → Option β) (l : List α)
    (h : ∀ x ∈ l, (f x).isSome) : (l.mapM f).isSome :=
  mapM_loop_isSome f l h []

theorem parsePredicateContent_total :
    ∀ (fuel : Nat) (content : Str), content.length < fuel →
      (parsePredicateContentF fuel content).isSome := by
  intro fuel
  induction fuel with
  | zero => intro content h; omega
  | succ fuel ih =>
    intro content hlen
    have hc : (trimStr content).length ≤ content.length :=
      trimStr_length_le content
    simp only [parsePredicateContentF]
    split
    · simp
    · split
      · next hor =>
        split
        · simp
        · next p ps heq =>
          have hmemp : p ∈ splitByOperator (trimStr content) (lit " or ") := by
            rw [heq]; simp
          have h2 : 2 ≤ (splitByOperator (trimStr content) (lit " or ")).length := by
            omega
          have hple : p.length < (trimStr content).length :=
            splitByOperator_part_length_lt (by decide) h2 hmemp
          have hp := ih p (by omega)
          obtain ⟨first, hfirst⟩ := Option.isSome_iff_exists.mp hp
          rw [hfirst]
          have hps : (ps.mapM (parsePredicateContentF fuel)).isSome := by
            apply mapM_option_isSome
            intro x hx
            have hmemx : x ∈ splitByOperator (trimStr content) (lit " or ") := by
              rw [heq]; simp [hx]
            have : x.length < (trimStr content).length :=
              splitByOperator_part_length_lt (by decide) h2 hmemx
            exact ih x (by omega)
          obtain ⟨rights, hrights⟩ := Option.isSome_iff_exists.mp hps
          rw [hrights]
          simp
      · split
        · next hand =>
          split
          · simp
          · next p ps heq =>
            have hmemp : p ∈ splitByOperator (trimStr content) (lit " and ") := by
              rw [heq]; simp
            have h2 : 2 ≤ (splitByOperator (trimStr content) (lit " and ")).length := by
              omega
            have hple : p.length < (trimStr content).length :=
              splitByOperator_part_length_lt (by decide) h2 hmemp
            have hp := ih p (by omega)
            obtain ⟨first, hfirst⟩ := Option.isSome_iff_exists.mp hp
            rw [hfirst]
            have hps : (ps.mapM (parsePredicateContentF fuel)).isSome := by
              apply mapM_option_isSome
              intro x hx
              have hmemx : x ∈ splitByOperator (trimStr content) (lit " and ") := by
                rw [heq]; simp [hx]
              have : x.length < (trimStr content).length :=
                splitByOperator_part_length_lt (by decide) h2 hmemx
              exact ih x (by omega)
            obtain ⟨rights, hrights⟩ := Option.isSome_iff_exists.mp hps
            rw [hrights]
            simp
        · split
          · next inner hnot =>
            have hinner : inner.length < (trimStr content).length :=
              matchNotContent_length hnot
            have hrec := ih inner (by omega)
            obtain ⟨res, hres⟩ := Option.isSome_iff_exists.mp hrec
            rw [hres]
            match res with
            | some p => simp
            | none => simp
          · simp

/-- Source `parsePredicateContent(content)`: the fueled parser run with
always-sufficient fuel; `none` is the source's `null`. -/
def parsePredicateContent (content : Str) : Option Predicate :=
  (parsePredicateContentF (content.length + 1) content).join

theorem parsePredicateContentF_eq_some (content : Str) :
    ∃ r, parsePredicateContentF (content.length + 1) content = some r := by
  have := parsePredicateContent_total (content.length + 1) content (by omega)
  exact Option.isSome_iff_exists.mp this

/-! ## Steps and the top-level expression parser -/

/-- `l.drop n` is a suffix of `l`. -/
theorem drop_isSuffix {α : Type} (n : Nat) (l : List α) : l.drop n <:+ l :=
  ⟨l.take n, l.take_append_drop n⟩

theorem tail_isSuffix {α : Type} (l : List α) : l.tail <:+ l := by
  rw [← List.drop_one]
  exact drop_isSuffix 1 l

theorem isSuffix_length_le {α : Type} {l₁ l₂ : List α} (h : l₁ <:+ l₂) :
    l₁.length ≤ l₂.length := by
  obtain ⟨t, ht⟩ := h
  subst ht
  simp

theorem isSuffix_ne_length_lt {α : Type} {l₁ l₂ : List α} (h : l₁ <:+ l₂)
    (hne : l₁ ≠ l₂) : l₁.length < l₂.length := by
  obtain ⟨t, ht⟩ := h
  subst ht
  match t with
  | [] => simp at hne
  | a :: t => simp; omega

/-- JS `expr.slice(a, b)` for natural bounds. -/
def jsSliceNat (s : Str) (a b : Nat) : Str := (s.take b).drop a

/-- Source `parseSinglePredicate(expr)`: strip one `[...]` group; on a
missing opening bracket or unmatched closing bracket, no predicate and
the input unchanged (the caller's loop then breaks). -/
def parseSinglePredicate (expr : Str) : Option Predicate × Str :=
  if ¬ (lit "[").isPrefixOf expr then (none, expr)
  else
    match findMatchingBracket expr with
    | none => (none, expr)
    | some closeIdx =>
      let content := trimStr (jsSliceNat expr 1 closeIdx)
      let rest := expr.drop (closeIdx + 1)
      (parsePredicateContent content, rest)

theorem parseSinglePredicate_rest (expr : Str) :
    (parseSinglePredicate expr).2 = expr ∨
      ((parseSinglePredicate expr).2 <:+ expr ∧
        (parseSinglePredicate expr).2.length < expr.length) := by
  simp only [parseSinglePredicate]
  split
  · simp
  · next hpre =>
    rw [not_not] at hpre
    have hne : expr ≠ [] := by
      intro he
      rw [he] at hpre
      simp [lit, List.isPrefixOf] at hpre
    split
    · simp
    · next closeIdx _ =>
      right
      constructor
      · exact drop_isSuffix _ _
      · have : 0 < expr.length := List.length_pos.mpr hne
        simp [List.length_drop]
        omega

/-- Source loop of `parsePredicates(expr)`, fueled (the outer `none` is
fuel exhaustion only): read `[...]` groups while the input starts with
`[`, pushing each non-null parse, and stop when `parseSinglePredicate`
makes no progress. -/
def parsePredicatesF : Nat → Str → Option (List Predicate × Str)
  | 0, _ => none
  | fuel + 1, remaining =>
    if (lit "[").isPrefixOf remaining then
      let pr := parseSinglePredicate remaining
      if pr.2 = remaining then some (pr.1.toList, remaining)
      else
        match parsePredicatesF fuel pr.2 with
        | none => none
        | some (ps, r) => some (pr.1.toList ++ ps, r)
    else some ([], remaining)

theorem parsePredicatesF_total :
    ∀ (fuel : Nat) (s : Str), s.length < fuel →
      (parsePredicatesF fuel s).isSome := by
  intro fuel
  induction fuel with
  | zero => intro s h; omega
  | succ fuel ih =>
    intro s hlen
    simp only [parsePredicatesF]
    split
    · split
      · simp
      · next hne =>
        rcases parseSinglePredicate_rest s with h | ⟨_, hlt⟩
        · exact absurd h hne
        · have := ih (parseSinglePredicate s).2 (by omega)
          obtain ⟨⟨ps, r⟩, hr⟩ := Option.isSome_iff_exists.mp this
          rw [hr]
          simp
    · simp

theorem parsePredicatesF_suffix :
    ∀ (fuel : Nat) (s : Str) (ps : List Predicate) (r : Str),
      parsePredicatesF fuel s = some (ps, r) → r <:+ s := by
  intro fuel
  induction fuel with
  | zero => intro s ps r h; simp [parsePredicatesF] at h
  | succ fuel ih =>
    intro s ps r h
    simp only [parsePredicatesF] at h
    split at h
    · split at h
      · simp at h
        obtain ⟨_, h2⟩ := h
        rw [← h2]
      · split at h
        · exact absurd h (by simp)
        · next ps2 r2 heq =>
          simp at h
          obtain ⟨_, h2⟩ := h
          subst h2
          have h3 := ih _ _ _ heq
          rcases parseSinglePredicate_rest s with h4 | ⟨h4, _⟩
          · exact h4 ▸ h3
          · exact h3.trans h4
    · simp at h
      obtain ⟨_, h2⟩ := h
      rw [← h2]

/-- The explicit axis keywords of
`^(following-sibling|preceding-sibling|following|preceding|ancestor|parent|self)::`,
in the source's alternation order. -/
def axisAlts : List (Str × Axis) :=
  [(lit "following-sibling", .followingSibling),
   (lit "preceding-sibling", .precedingSibling),
   (lit "following", .following),
   (lit "preceding", .preceding),
   (lit "ancestor", .ancestor),
   (lit "parent", .parent),
   (lit "self", .self)]

/-- Match one axis keyword followed by `::` (alternatives in order, each
with its continuation, matching the regex engine's backtracking). -/
def findAxisKw : List (Str × Axis) → Str → Option (Axis × Str)
  | [], _ => none
  | (kw, ax) :: more, remaining =>
    if kw.isPrefixOf remaining ∧
        (lit "::").isPrefixOf (remaining.drop kw.length) then
      some (ax, remaining.drop (kw.length + 2))
    else
      findAxisKw more remaining

theorem findAxisKw_suffix :
    ∀ (alts : List (Str × Axis)) (s : Str) (ax : Axis) (r : Str),
      findAxisKw alts s = some (ax, r) → r <:+ s := by
  intro alts
  induction alts with
  | nil => intro s ax r h; simp [findAxisKw] at h
  | cons kwax more ih =>
    intro s ax r h
    simp only [findAxisKw] at h
    split at h
    · simp at h
      obtain ⟨_, h2⟩ := h
      rw [← h2]
      exact drop_isSuffix _ _
    · exact ih s ax r h

/-- The node-test portion of `parseStep`: `text()`, `node()`, `*`, or a
bare name, each followed by its predicate list; anything else yields no
step and the unchanged input. -/
def parseStepTests (axis : Axis) (remaining : Str) :
    Option (Option Step × Str) :=
  if (lit "text()").isPrefixOf remaining then
    match parsePredicatesF ((remaining.drop 6).length + 1) (remaining.drop 6) with
    | none => none
    | some (preds, rest) => some (some ⟨axis, .text, preds⟩, rest)
  else if (lit "node()").isPrefixOf remaining then
    match parsePredicatesF ((remaining.drop 6).length + 1) (remaining.drop 6) with
    | none => none
    | some (preds, rest) => some (some ⟨axis, .node, preds⟩, rest)
  else if (lit "*").isPrefixOf remaining then
    match parsePredicatesF ((remaining.drop 1).length + 1) (remaining.drop 1) with
    | none => none
    | some (preds, rest) => some (some ⟨axis, .any, preds⟩, rest)
  else
    match matchWord remaining with
    | some (w, r) =>
      match parsePredicatesF (r.length + 1) r with
      | none => none
      | some (preds, rest) => some (some ⟨axis, .name w, preds⟩, rest)
    | none => some (none, remaining)

/-- The body of `parseStep` after the leading `/`-style axis marker has
been stripped: optional `axis::` keyword, then the `@attr` shorthand
(falling through to the node tests when no attribute name follows the
`@`), then the node tests. -/
def parseStepMain (axis0 : Axis) (remaining0 : Str) :
    Option (Option Step × Str) :=
  let ar :=
    match findAxisKw axisAlts remaining0 with
    | some ar => ar
    | none => (axis0, remaining0)
  match ar.2 with
  | '@' :: restA =>
    match matchWord restA with
    | some (w, r) => some (some ⟨.attribute, .name w, []⟩, r)
    | none => parseStepTests ar.1 ar.2
  | _ => parseStepTests ar.1 ar.2

/-- Source `parseStep(expr)`: strip one leading axis marker (`//`, `/`,
`.//`, `./`, `..`, `.`), then parse one step. -/
def parseStep (expr : Str) : Option (Option Step × Str) :=
  if (lit "//").isPrefixOf expr then parseStepMain .descendant (expr.drop 2)
  else if (lit "/").isPrefixOf expr then parseStepMain .child (expr.drop 1)
  else if (lit ".//").isPrefixOf expr then parseStepMain .descendant (expr.drop 3)
  else if (lit "./").isPrefixOf expr then parseStepMain .child (expr.drop 2)
  else if (lit "..").isPrefixOf expr then
    some (some ⟨.parent, .node, []⟩, expr.drop 2)
  else if (lit ".").isPrefixOf expr then
    some (some ⟨.self, .node, []⟩, expr.drop 1)
  else parseStepMain .child expr

theorem parseStepTests_isSome (axis : Axis) (remaining : Str) :
    (parseStepTests axis remaining).isSome := by
  simp only [parseStepTests]
  split
  · have := parsePredicatesF_total ((remaining.drop 6).length + 1)
      (remaining.drop 6) (by omega)
    obtain ⟨⟨ps, r⟩, hr⟩ := Option.isSome_iff_exists.mp this
    rw [hr]; simp
  · split
    · have := parsePredicatesF_total ((remaining.drop 6).length + 1)
        (remaining.drop 6) (by omega)
      obtain ⟨⟨ps, r⟩, hr⟩ := Option.isSome_iff_exists.mp this
      rw [hr]; simp
    · split
      · have := parsePredicatesF_total ((remaining.drop 1).length + 1)
          (remaining.drop 1) (by omega)
        obtain ⟨⟨ps, r⟩, hr⟩ := Option.isSome_iff_exists.mp this
        rw [hr]; simp
      · split
        · next w r _ =>
          have := parsePredicatesF_total (r.length + 1) r (by omega)
          obtain ⟨⟨ps, r2⟩, hr⟩ := Option.isSome_iff_exists.mp this
          rw [hr]; simp
        · simp

theorem parseStepTests_suffix (axis : Axis) (remaining : Str)
    (st : Option Step) (rest : Str)
    (h : parseStepTests axis remaining = some (st, rest)) :
    rest <:+ remaining := by
  simp only [parseStepTests] at h
  split at h
  · split at h
    · exact absurd h (by simp)
    · next heq =>
      simp at h
      exact h.2 ▸ (parsePredicatesF_suffix _ _ _ _ heq).trans (drop_isSuffix _ _)
  · split at h
    · split at h
      · exact absurd h (by simp)
      · next heq =>
        simp at h
        exact h.2 ▸ (parsePredicatesF_suffix _ _ _ _ heq).trans (drop_isSuffix _ _)
    · split at h
      · split at h
        · exact absurd h (by simp)
        · next heq =>
          simp at h
          exact h.2 ▸ (parsePredicatesF_suffix _ _ _ _ heq).trans (drop_isSuffix _ _)
      · split at h
        · next w r hw =>
          split at h
          · exact absurd h (by simp)
          · next heq =>
            simp at h
            have hr : r <:+ remaining := by
              simp only [matchWord] at hw
              split at hw
              · exact absurd hw (by simp)
              · simp at hw
                exact hw.2 ▸ drop_isSuffix _ _
            exact h.2 ▸ (parsePredicatesF_suffix _ _ _ _ heq).trans hr
        · simp at h
          exact h.2 ▸ ⟨[], rfl⟩

theorem parseStepMain_isSome (axis0 : Axis) (remaining0 : Str) :
    (parseStepMain axis0 remaining0).isSome := by
  simp only [parseStepMain]
  split
  · split
    · simp
    · exact parseStepTests_isSome _ _
  · exact parseStepTests_isSome _ _

theorem matchWord_suffix {s w r : Str} (h : matchWord s = some (w, r)) :
    r <:+ s := by
  simp only [matchWord] at h
  split at h
  · exact absurd h (by simp)
  · simp at h
    exact h.2 ▸ drop_isSuffix _ _

theorem parseStepMain_suffix (axis0 : Axis) (remaining0 : Str)
    (st : Option Step) (rest : Str)
    (h : parseStepMain axis0 remaining0 = some (st, rest)) :
    rest <:+ remaining0 := by
  simp only [parseStepMain] at h
  revert h
  generalize hard : (match findAxisKw axisAlts remaining0 with
      | some ar => ar
      | none => (axis0, remaining0)) = ar
  have har : ar.2 <:+ remaining0 := by
    rw [← hard]
    cases hfk : findAxisKw axisAlts remaining0 with
    | some p =>
      simp only
      obtain ⟨pa, pr⟩ := p
      exact findAxisKw_suffix _ _ pa pr hfk
    | none => exact ⟨[], rfl⟩
  intro h
  split at h
  · next restA heq =>
    split at h
    · next w r hw =>
      simp at h
      have h1 : r <:+ ar.2 := by
        rw [heq]
        exact (matchWord_suffix hw).trans ⟨['@'], rfl⟩
      exact h.2 ▸ h1.trans har
    · exact (parseStepTests_suffix _ _ _ _ h).trans har
  · exact (parseStepTests_suffix _ _ _ _ h).trans har

theorem parseStep_isSome (expr : Str) : (parseStep expr).isSome := by
  simp only [parseStep]
  split
  · exact parseStepMain_isSome _ _
  · split
    · exact parseStepMain_isSome _ _
    · split
      · exact parseStepMain_isSome _ _
      · split
        · exact parseStepMain_isSome _ _
        · split
          · simp
          · split
            · simp
            · exact parseStepMain_isSome _ _

theorem parseStep_suffix (expr : Str) (st : Option Step) (rest : Str)
    (h : parseStep expr = some (st, rest)) : rest <:+ expr := by
  simp only [parseStep] at h
  split at h
  · exact (parseStepMain_suffix _ _ _ _ h).trans (drop_isSuffix _ _)
  · split at h
    · exact (parseStepMain_suffix _ _ _ _ h).trans (drop_isSuffix _ _)
    · split at h
      · exact (parseStepMain_suffix _ _ _ _ h).trans (drop_isSuffix _ _)
      · split at h
        · exact (parseStepMain_suffix _ _ _ _ h).trans (drop_isSuffix _ _)
        · split at h
          · simp at h
            exact h.2 ▸ drop_isSuffix _ _
          · split at h
            · simp at h
              exact h.2 ▸ tail_isSuffix expr
            · exact parseStepMain_suffix _ _ _ _ h

/-- Source loop of `parseXPath(expr)`, fueled (the outer `none` is fuel
exhaustion only): repeatedly parse steps; when `parseStep` makes no
progress the loop breaks and the non-empty unconsumed tail is reported
as a warning (returned here as the second component) rather than
thrown. -/
def parseXPathF : Nat → Str → Option (List Step × Option Str)
  | 0, _ => none
  | fuel + 1, remaining =>
    if remaining = [] then some ([], none)
    else
      match parseStep remaining with
      | none => none
      | some (stepOpt, rest) =>
        if rest = remaining then some (stepOpt.toList, some remaining)
        else
          match parseXPathF fuel rest with
          | none => none
          | some (steps, dropped) => some (stepOpt.toList ++ steps, dropped)

theorem parseXPathF_total :
    ∀ (fuel : Nat) (s : Str), s.length < fuel →
      (parseXPathF fuel s).isSome := by
  intro fuel
  induction fuel with
  | zero => intro s h; omega
  | succ fuel ih =>
    intro s hlen
    simp only [parseXPathF]
    split
    · simp
    · have hs := parseStep_isSome s
      obtain ⟨⟨stepOpt, rest⟩, hr⟩ := Option.isSome_iff_exists.mp hs
      rw [hr]
      simp only
      split
      · simp
      · next hne =>
        have hsuf := parseStep_suffix s stepOpt rest hr
        have hlt := isSuffix_ne_length_lt hsuf hne
        have := ih rest (by omega)
        obtain ⟨⟨steps, dropped⟩, hr2⟩ := Option.isSome_iff_exists.mp this
        rw [hr2]
        simp

/-- Source `parseXPath(expr)`: trim, then run the step loop with
always-sufficient fuel.  Returns the parsed steps and the dropped
unconsumed tail, if any. -/
def parseXPath (expr : Str) : Option (List Step × Option Str) :=
  parseXPathF (expr.length + 1) (trimStr expr)

/-! ## Document tree model

The HTML tree provider (linkedom) is external to the repository; the
spec (§3, §6) describes it as a rooted tree of Document / Element /
Text nodes with ordered attributes and children.  Node identity
(JS reference equality, used by `Set<Node>` and `Array.indexOf`) is
modelled by the node's path of child indices from the root. -/

/-- Modelled from the spec: the external document tree (§3 "Document
Tree"): Document, Element (tag name, ordered attribute mapping, ordered
child list), Text (string payload).  Parent back-references are implicit
in the path representation. -/
inductive DNode where
  | doc (kids : List DNode)
  | elem (tag : Str) (attrs : List (Str × Str)) (kids : List DNode)
  | text (data : Str)
  deriving Repr

/-- A node's identity: its child-index path from the document root. -/
abbrev Path := List Nat

def kidsOf : DNode → List DNode
  | .doc ks => ks
  | .elem _ _ ks => ks
  | .text _ => []

/-- Follow a path from a node. -/
def resolve : DNode → Path → Option DNode
  | t, [] => some t
  | t, i :: p =>
    match (kidsOf t).get? i with
    | some k => resolve k p
    | none => none

/-- DOM `getAttribute`: the first attribute with the given name, or
null. -/
def getAttribute (n : DNode) (name : Str) : Option Str :=
  match n with
  | .elem _ attrs _ => (attrs.find? (fun a => a.1 == name)).map (·.2)
  | _ => none

mutual

/-- DOM `textContent` worker: the concatenated text descendants for an
element, the payload for a text node. -/
def textContentN : DNode → Str
  | .text s => s
  | .elem _ _ ks => textContentL ks
  | .doc ks => textContentL ks

def textContentL : List DNode → Str
  | [] => []
  | k :: ks => textContentN k ++ textContentL ks

end

def textContent : DNode → Option Str
  | .doc _ => none
  | .text s => some s
  | .elem t a ks => some (textContentN (.elem t a ks))

/-- Source `getNodeText(node)`: `node.textContent?.trim() ?? ""`. -/
def getNodeText (n : DNode) : Str :=
  match textContent n with
  | some s => trimStr s
  | none => []

def getNodeTextP (root : DNode) (p : Path) : Str :=
  match resolve root p with
  | some n => getNodeText n
  | none => []

mutual

/-- All strict-descendant paths of a node in preorder (source
`getDescendants`, which pushes each child followed by its own
descendants). -/
def descPaths : DNode → List Path
  | .text _ => []
  | .elem _ _ ks => descPathsL 0 ks
  | .doc ks => descPathsL 0 ks

def descPathsL : Nat → List DNode → List Path
  | _, [] => []
  | i, k :: ks =>
    [i] :: ((descPaths k).map (fun p => i :: p) ++ descPathsL (i + 1) ks)

end

mutual

/-- All strict-descendant nodes in preorder. -/
def descNodes : DNode → List DNode
  | .text _ => []
  | .elem _ _ ks => descNodesL ks
  | .doc ks => descNodesL ks

def descNodesL : List DNode → List DNode
  | [] => []
  | k :: ks => k :: (descNodes k ++ descNodesL ks)

end

def toLowerStr (s : Str) : Str := s.map Char.toLower

def isTagElem (tag : Str) : DNode → Bool
  | .elem t _ _ => toLowerStr t == toLowerStr tag
  | _ => false

/-- Modelled from the spec: the external tree's subtree query
(`querySelector`/`querySelectorAll` with a plain tag-name selector):
the descendant elements whose tag name matches, in document order
(§4.2: `count(tag)` "counts descendant elements matching the literal
tag name via the tree's own subtree query"). -/
def querySelectorAllCount (n : DNode) (tag : Str) : Nat :=
  ((descNodes n).filter (isTagElem tag)).length

/-- Modelled from the spec: `querySelector(tag) !== null`. -/
def querySelectorExists (n : DNode) (tag : Str) : Bool :=
  (descNodes n).any (isTagElem tag)

def attrsHTML : List (Str × Str) → Str
  | [] => []
  | (n, v) :: rest =>
    lit " " ++ n ++ lit "=\x22" ++ v ++ lit "\x22" ++ attrsHTML rest

mutual

/-- Modelled from the spec: the external provider's markup
serialization (§6 "markup serialization (inner/outer)").  Elements
serialize as a tag pair with their attributes and serialized children;
text serializes as its payload; a document serializes as its children. -/
def outerHTML : DNode → Str
  | .text s => s
  | .elem tag attrs ks =>
    lit "<" ++ tag ++ attrsHTML attrs ++ lit ">" ++ innerHTMLL ks
      ++ lit "</" ++ tag ++ lit ">"
  | .doc ks => innerHTMLL ks

def innerHTMLL : List DNode → Str
  | [] => []
  | k :: ks => outerHTML k ++ innerHTMLL ks

end

/-- DOM `innerHTML` of an element (or a document's serialized
children). -/
def innerHTML (n : DNode) : Str := innerHTMLL (kidsOf n)

/-! ## Axis candidate computation (src: `getCandidates`, `getDescendants`) -/

/-- `parent` chain, nearest first (source `ancestor` axis walks
`parentNode` upward). -/
def ancestorPaths : Path → List Path
  | [] => []
  | i :: p => (i :: p).dropLast :: ancestorPaths ((i :: p).dropLast)
termination_by p => p.length
decreasing_by simp [List.length_dropLast]

mutual

/-- The `following` axis walk (source `getCandidates` case
`"following"`): a preorder walk from the root carrying the
`foundContext` flag; after the context has been seen, each node and its
descendants are collected; a child containing the context is descended
into instead of collected. -/
def followingWalk (ctx : Path) : DNode → Path → Bool → (List Path × Bool)
  | .text _, _, found => ([], found)
  | .elem _ _ ks, np, found => followingWalkL ctx ks np 0 found
  | .doc ks, np, found => followingWalkL ctx ks np 0 found

def followingWalkL (ctx : Path) :
    List DNode → Path → Nat → Bool → (List Path × Bool)
  | [], _, _, found => ([], found)
  | k :: ks, np, i, found =>
    let kp := np ++ [i]
    if found then
      let here := kp :: (descPaths k).map (fun q => kp ++ q)
      let res := followingWalkL ctx ks np (i + 1) true
      (here ++ res.1, res.2)
    else if kp = ctx then
      followingWalkL ctx ks np (i + 1) true
    else if kp.isPrefixOf ctx then
      let inner := followingWalk ctx k kp false
      let res := followingWalkL ctx ks np (i + 1) inner.2
      (inner.1 ++ res.1, res.2)
    else
      followingWalkL ctx ks np (i + 1) found

end

mutual

/-- The `preceding` axis walk (source `getCandidates` case
`"preceding"`): collect each node and its descendants until the
context (or the ancestor branch holding it) is reached; the boolean
result signals that the context was found (the source's early
`return true`). -/
def precedingWalk (ctx : Path) : DNode → Path → (List Path × Bool)
  | .text _, _ => ([], false)
  | .elem _ _ ks, np => precedingWalkL ctx ks np 0
  | .doc ks, np => precedingWalkL ctx ks np 0

def precedingWalkL (ctx : Path) : List DNode → Path → Nat → (List Path × Bool)
  | [], _, _ => ([], false)
  | k :: ks, np, i =>
    let kp := np ++ [i]
    if kp = ctx then ([], true)
    else if kp.isPrefixOf ctx then
      let inner := precedingWalk ctx k kp
      if inner.2 then (inner.1, true)
      else
        let res := precedingWalkL ctx ks np (i + 1)
        (inner.1 ++ res.1, res.2)
    else
      let here := kp :: (descPaths k).map (fun q => kp ++ q)
      let res := precedingWalkL ctx ks np (i + 1)
      (here ++ res.1, res.2)

end

/-- Source `getCandidates(axis, context)`.  The context node and all
candidates are paths from the fixed root document.  The source's
special document branch of `descendant` (walking top-level children
and their descendants) computes the same preorder descendant list as
`getDescendants`, here `descPaths`. -/
def getCandidates (root : DNode) (axis : Axis) (p : Path) : List Path :=
  match axis with
  | .child =>
    match resolve root p with
    | some n => (List.range (kidsOf n).length).map (fun i => p ++ [i])
    | none => []
  | .descendant =>
    match resolve root p with
    | some n => (descPaths n).map (fun q => p ++ q)
    | none => []
  | .self => [p]
  | .parent =>
    match p with
    | [] => []
    | _ :: _ => [p.dropLast]
  | .attribute =>
    match resolve root p with
    | some (.elem _ _ _) => [p]
    | _ => []
  | .ancestor => ancestorPaths p
  | .followingSibling =>
    match p.getLast?, resolve root p.dropLast with
    | some i, some par =>
      (((List.range (kidsOf par).length).filter (fun j => i < j)).map
        (fun j => p.dropLast ++ [j]))
    | _, _ => []
  | .precedingSibling =>
    match p.getLast? with
    | some i => ((List.range i).reverse).map (fun j => p.dropLast ++ [j])
    | none => []
  | .following => (followingWalk p root [] false).1
  | .preceding => (precedingWalk p root []).1

/-- Source `filterByNodeTest(nodes, test)`. -/
def filterByNodeTest (root : DNode) (nodes : List Path) (test : NodeTest) :
    List Path :=
  match test with
  | .any =>
    nodes.filter (fun p =>
      match resolve root p with
      | some (.elem _ _ _) => true
      | _ => false)
  | .name nm =>
    nodes.filter (fun p =>
      match resolve root p with
      | some (.elem t _ _) => toLowerStr t == toLowerStr nm
      | _ => false)
  | .text =>
    nodes.filter (fun p =>
      match resolve root p with
      | some (.text _) => true
      | _ => false)
  | .node => nodes

/-! ## Predicate evaluation (src: `evaluatePredicate` and helpers) -/

/-- JS `Array.prototype.indexOf`: first index or `-1`.  Node identity is
path equality. -/
def jsIndexOfAux : List Path → Path → Nat → Int
  | [], _, _ => -1
  | x :: xs, a, i => if x = a then (i : Int) else jsIndexOfAux xs a (i + 1)

def jsIndexOf (l : List Path) (a : Path) : Int := jsIndexOfAux l a 0

/-- Source `compareNumbers(left, operator, right)`. -/
def compareNumbers (left : Int) (op : CmpOp) (right : Int) : Bool :=
  match op with
  | .lt => left < right
  | .gt => right < left
  | .le => left ≤ right
  | .ge => right ≤ left
  | .eq => left == right

/-- JS `String.prototype.slice` with signed indices. -/
def jsSliceInt (s : Str) (start : Int) (stop : Option Int) : Str :=
  let len : Int := s.length
  let norm : Int → Nat := fun i =>
    if i < 0 then (max 0 (len + i)).toNat else (min i len).toNat
  let a := norm start
  let b := match stop with
    | some e => norm e
    | none => s.length
  (s.take b).drop a

/-- JS `String.prototype.indexOf` for a substring (first occurrence, or
none for `-1`). -/
def indexOfSubAux (d : Str) : Nat → Str → Option Nat
  | i, [] => if d.isPrefixOf [] then some i else none
  | i, c :: rest =>
    if d.isPrefixOf (c :: rest) then some i else indexOfSubAux d (i + 1) rest

def indexOfSub (s d : Str) : Option Nat := indexOfSubAux d 0 s

/-- JS `String.prototype.includes`. -/
def jsIncludes (s sub : Str) : Bool := (indexOfSub s sub).isSome

/-- Source `normalizeSpace(text)`:
`text.replace(/\s+/g, " ").trim()`. -/
def collapseWs : Str → Str
  | [] => []
  | c :: rest =>
    if isWs c then ' ' :: collapseWs (rest.dropWhile isWs)
    else c :: collapseWs rest
termination_by s => s.length
decreasing_by
  all_goals simp
  · exact Nat.lt_succ_of_le (length_dropWhile_le isWs rest)

def normalizeSpace (s : Str) : Str := trimStr (collapseWs s)

/-- JS `str.split(ch).join(rep)`: replace every occurrence of the
character `ch` by `rep`. -/
def replaceAllChar (s : Str) (ch : Char) (rep : Str) : Str :=
  match s with
  | [] => []
  | c :: rest =>
    (if c = ch then rep else [c]) ++ replaceAllChar rest ch rep

/-- Source `translate-equals` evaluation: for each character of `from`
in order, replace all its occurrences by the positionally matching
character of `to`, or by nothing when `to` is shorter. -/
def translateJs (text fromChars toChars : Str) : Str :=
  (fromChars.enum).foldl
    (fun res ic =>
      let rep : Str :=
        match toChars.get? ic.1 with
        | some ch => [ch]
        | none => []
      replaceAllChar res ic.2 rep)
    text

/-- Source `evaluatePredicate(node, pred, allNodes)`.  `allNodes` is the
candidate list the predicate filters (position predicates are relative
to it); the node and candidates are paths from `root`. -/
def evaluatePredicate (root : DNode) (node : Path) (pred : Predicate)
    (allNodes : List Path) : Bool :=
  match pred with
  | .position index =>
    jsIndexOf allNodes node == (index : Int) - 1
  | .attrExists name =>
    match resolve root node with
    | some (.elem t attrs ks) => (getAttribute (.elem t attrs ks) name).isSome
    | _ => false
  | .attrEquals name value =>
    match resolve root node with
    | some (.elem t attrs ks) =>
      -- JS `getAttribute(name) === value`: a missing attribute is
      -- `null`, which is not `===`-equal to any string
      match getAttribute (.elem t attrs ks) name with
      | some v => v == value
      | none => false
    | _ => false
  | .textEquals value => getNodeTextP root node == value
  | .textContains value => jsIncludes (getNodeTextP root node) value
  | .attrContains name value =>
    match resolve root node with
    | some (.elem t attrs ks) =>
      -- JS `(getAttribute(name) ?? "").includes(value)`
      jsIncludes ((getAttribute (.elem t attrs ks) name).getD []) value
    | _ => false
  | .attrStartsWith name value =>
    match resolve root node with
    | some (.elem t attrs ks) =>
      value.isPrefixOf ((getAttribute (.elem t attrs ks) name).getD [])
    | _ => false
  | .attrEndsWith name value =>
    match resolve root node with
    | some (.elem t attrs ks) =>
      value.isSuffixOf ((getAttribute (.elem t attrs ks) name).getD [])
    | _ => false
  | .textStartsWith value => value.isPrefixOf (getNodeTextP root node)
  | .textEndsWith value => value.isSuffixOf (getNodeTextP root node)
  | .hasChild tagName =>
    match resolve root node with
    | some (.elem t attrs ks) => querySelectorExists (.elem t attrs ks) tagName
    | _ => false
  | .not inner => !(evaluatePredicate root node inner allNodes)
  | .and left right =>
    evaluatePredicate root node left allNodes &&
      evaluatePredicate root node right allNodes
  | .or left right =>
    evaluatePredicate root node left allNodes ||
      evaluatePredicate root node right allNodes
  | .attrNotEquals name value =>
    match resolve root node with
    | some (.elem t attrs ks) =>
      -- JS `getAttribute(name) !== value`: true for a missing attribute
      !(match getAttribute (.elem t attrs ks) name with
        | some v => v == value
        | none => false)
    | _ => false
  | .textNotEquals value => !(getNodeTextP root node == value)
  | .normalizeSpaceEquals value =>
    normalizeSpace (getNodeTextP root node) == value
  | .last => jsIndexOf allNodes node == (allNodes.length : Int) - 1
  | .positionCompare op value =>
    compareNumbers (jsIndexOf allNodes node + 1) op (value : Int)
  | .countCompare tagName op value =>
    match resolve root node with
    | some (.elem t attrs ks) =>
      compareNumbers (querySelectorAllCount (.elem t attrs ks) tagName) op
        (value : Int)
    | _ => false
  | .stringLengthCompare op value =>
    compareNumbers ((getNodeTextP root node).length) op (value : Int)
  | .substringEquals start len value =>
    let text := getNodeTextP root node
    let s : Int := (start : Int) - 1
    let sub :=
      match len with
      | some l => jsSliceInt text s (some (s + (l : Int)))
      | none => jsSliceInt text s none
    sub == value
  | .substringBeforeEquals delim value =>
    let text := getNodeTextP root node
    let before :=
      match indexOfSub text delim with
      | none => ([] : Str)
      | some i => text.take i
    before == value
  | .substringAfterEquals delim value =>
    let text := getNodeTextP root node
    let after :=
      match indexOfSub text delim with
      | none => ([] : Str)
      | some i => text.drop (i + delim.length)
    after == value
  | .translateEquals fromChars toChars value =>
    translateJs (getNodeTextP root node) fromChars toChars == value

/-- Source `applyPredicates(nodes, predicates)`: fold the predicates
left to right, each filtering the current list, with the predicate
evaluated against the current list (so position predicates see the
node-test-filtered candidate list of this axis application). -/
def applyPredicates (root : DNode) (nodes : List Path)
    (predicates : List Predicate) : List Path :=
  predicates.foldl
    (fun result pred =>
      result.filter (fun node => evaluatePredicate root node pred result))
    nodes

/-! ## Step and expression evaluation (src: `evaluateStep`,
`evaluateSingleXPath`, `evaluateXPath`) -/

/-- An XPath evaluation result: a node (by path) or a raw attribute
string. -/
inductive XPathRes where
  | str (s : Str)
  | node (p : Path)
  deriving DecidableEq, Repr

/-- Source `evaluateStep(step, contexts)`: string contexts are skipped;
the attribute axis with a name test produces the raw attribute value;
otherwise axis candidates are filtered by node test then predicates. -/
def evaluateStep (root : DNode) (step : Step) (contexts : List XPathRes) :
    List XPathRes :=
  (contexts.map (fun ctx =>
    match ctx with
    | .str _ => []
    | .node p =>
      match step.axis, step.nodeTest with
      | .attribute, .name nm =>
        match resolve root p with
        | some (.elem t attrs ks) =>
          match getAttribute (.elem t attrs ks) nm with
          | some v => [XPathRes.str v]
          | none => []
        | _ => []
      | axis, test =>
        let candidates := getCandidates root axis p
        let matched := filterByNodeTest root candidates test
        (applyPredicates root matched step.predicates).map XPathRes.node)).flatten

/-- Source `evaluateSingleXPath(expr, contexts)`: parse, then fold the
steps over the contexts. -/
def evaluateSingleXPath (root : DNode) (expr : Str) (contexts : List Path) :
    List XPathRes :=
  let steps := ((parseXPath expr).map Prod.fst).getD []
  steps.foldl (fun results step => evaluateStep root step results)
    (contexts.map XPathRes.node)

/-- The union accumulation loop of `evaluateXPath`: strings are always
appended; nodes are appended only when not yet seen (identity =
path). -/
def unionAccum (results : List XPathRes) (acc : List XPathRes)
    (seen : List Path) : List XPathRes × List Path :=
  results.foldl
    (fun st r =>
      match r with
      | .str s => (st.1 ++ [XPathRes.str s], st.2)
      | .node p =>
        if st.2.contains p then st
        else (st.1 ++ [XPathRes.node p], st.2 ++ [p]))
    (acc, seen)

/-- Source `evaluateXPath(expr, context)`: empty/blank expressions give
no results; a top-level union evaluates each part and concatenates,
de-duplicating node results by identity; otherwise evaluate the single
expression. -/
def evaluateXPath (root : DNode) (expr : Str) (contexts : List Path) :
    List XPathRes :=
  if trimStr expr = [] then []
  else
    let unionParts := splitUnion expr
    if 1 < unionParts.length then
      (unionParts.foldl
        (fun st part =>
          unionAccum (evaluateSingleXPath root (trimStr part) contexts)
            st.1 st.2)
        (([] : List XPathRes), ([] : List Path))).1
    else
      evaluateSingleXPath root expr contexts

/-! ## Pseudo-element translation (src: `parseXPathPseudo`,
`extractValue`) -/

inductive ExtractMode where
  | node | text | attr
  deriving DecidableEq, Repr

structure ParsedSelector where
  query : Str
  extract : ExtractMode
  attrName : Option Str
  deriving DecidableEq, Repr

/-- The `::attr(NAME)` suffix match `^(.+?)::attr\(([^)]+)\)$`: the lazy
non-empty base grows from the left (the regex engine backtracks to
larger bases when the argument part fails); the whole query must end
with `)`, the name (everything between `::attr(` and that final `)`)
must be non-empty and contain no `)`, and the base, matched by `.`,
cannot contain a newline. -/
def attrSplitGo (query : Str) : Nat → Option (Str × Str)
  | p =>
    if h : query.length ≤ p then none
    else
      let base := query.take p
      let tail := query.drop p
      if (lit "::attr(").isPrefixOf tail then
        let name := jsSliceNat query (p + 7) (query.length - 1)
        if name ≠ [] ∧ ¬ name.contains ')' ∧ ¬ base.contains '\n' then
          some (base, name)
        else attrSplitGo query (p + 1)
      else attrSplitGo query (p + 1)
termination_by p => query.length - p

def attrPseudoSplit (query : Str) : Option (Str × Str) :=
  if query.getLast? = some ')' then attrSplitGo query 1 else none

/-- Source `parseXPathPseudo(query)` (and the textually identical
`parseCSSPseudo`): recognize a trailing `::text` —
`^(.+?)::text$` requires a non-empty newline-free base before the
suffix — then a trailing `::attr(NAME)`, else node mode. -/
def parseXPathPseudo (query : Str) : ParsedSelector :=
  if (lit "::text").isSuffixOf query ∧ 7 ≤ query.length ∧
      ¬ (query.take (query.length - 6)).contains '\n' then
    { query := query.take (query.length - 6), extract := .text,
      attrName := none }
  else
    match attrPseudoSplit query with
    | some (base, name) =>
      { query := base, extract := .attr, attrName := some name }
    | none => { query := query, extract := .node, attrName := none }

/-- Source `extractValue(node, extract, attrName)`. -/
def extractValue (root : DNode) (p : Path) (extract : ExtractMode)
    (attrName : Option Str) : Option Str :=
  match resolve root p with
  | none => none
  | some n =>
    if extract = .text then
      match textContent n with
      | some s => if trimStr s = [] then none else some (trimStr s)
      | none => none
    else if extract = .attr ∧ attrName.isSome then
      match n, attrName with
      | .elem t attrs ks, some nm => getAttribute (.elem t attrs ks) nm
      | _, _ => none
    else
      match n with
      | .elem t attrs ks => some (outerHTML (.elem t attrs ks))
      | .text s => some (trimStr s)
      | .doc _ => none

/-! ## The Selector result abstraction (src: `Selector`, `TextSelector`)

A `Selector` holds a node list (paths into the shared document); a
`TextSelector` holds extracted strings and inherits with an empty node
list.  The two states are modelled as one sum. -/

inductive Sel where
  | nodes (ns : List Path)
  | strs (vs : List Str)
  deriving DecidableEq, Repr

/-- `Selector.ok` / `TextSelector.ok`: non-empty backing list. -/
def selOk : Sel → Bool
  | .nodes ns => decide (0 < ns.length)
  | .strs vs => decide (0 < vs.length)

/-- `Selector.count` / `TextSelector.count`. -/
def selCount : Sel → Nat
  | .nodes ns => ns.length
  | .strs vs => vs.length

/-- `Selector.getall()`: serialize each node (attribute value / trimmed
text / element outer markup / trimmed text content) and drop empty
strings; `TextSelector.getall()` returns the stored strings as-is. -/
def selGetall (root : DNode) : Sel → List Str
  | .nodes ns =>
    (ns.map (fun p =>
      match resolve root p with
      | some (.text s) => trimStr s
      | some (.elem t attrs ks) => outerHTML (.elem t attrs ks)
      | some (.doc _) => []
      | none => [])).filter (fun v => v ≠ [])
  | .strs vs => vs

/-- `Selector.get(defaultValue?)` / `TextSelector.get(defaultValue?)`:
the first value, else `defaultValue ?? null`. -/
def selGet (root : DNode) (s : Sel) (defaultValue : Option Str) :
    Option Str :=
  match s with
  | .nodes _ =>
    match selGetall root s with
    | [] => defaultValue
    | v :: _ => some v
  | .strs vs =>
    match vs with
    | [] => defaultValue
    | v :: _ => some v

/-- The node list used as context for chained queries: a
`TextSelector`'s inherited `#nodes` is empty. -/
def selNodes : Sel → List Path
  | .nodes ns => ns
  | .strs _ => []

/-- The result classification of `Selector.#evaluateSingleXPath`. -/
inductive SingleRes where
  | strings (vs : List Str)
  | nodesR (ns : List Path)
  deriving DecidableEq, Repr

/-- The string half of the source's partition loop over XPath
results. -/
def strOfRes : XPathRes → Option Str
  | .str v => some v
  | .node _ => none

/-- The node half of the source's partition loop over XPath results. -/
def nodeOfRes : XPathRes → Option Path
  | .str _ => none
  | .node p => some p

/-- Source `Selector.#evaluateSingleXPath(query)`: strip the pseudo
suffix, evaluate, then prefer raw string results; otherwise apply the
text/attr extraction; otherwise return the nodes.  (The source's
`try/catch` around `evaluateXPath` is dead in this model: the
evaluator is total.) -/
def selEvaluateSingleXPath (root : DNode) (s : Sel) (query : Str) :
    SingleRes :=
  let parsed := parseXPathPseudo query
  let xpathResults := evaluateXPath root parsed.query (selNodes s)
  let stringResults := xpathResults.filterMap strOfRes
  let nodeResults := xpathResults.filterMap nodeOfRes
  if stringResults ≠ [] then .strings stringResults
  else if parsed.extract = .text ∨ parsed.extract = .attr then
    .strings (nodeResults.filterMap
      (fun p => extractValue root p parsed.extract parsed.attrName))
  else .nodesR nodeResults

/-- Modelled from the spec: `splitXPathUnion` (imported by the Selector
from the XPath module but not present in the provided sources); §4.1
specifies the same quote/bracket-aware depth-0 splitting on `|` as
`splitUnion`. -/
def splitXPathUnion (query : Str) : List Str := splitUnion query

/-- The accumulation loop of `Selector.xpath` over union parts: strings
concatenate, nodes are de-duplicated by identity (first seen wins). -/
def selUnionAccum (r : SingleRes)
    (st : List Str × List Path × List Path) :
    List Str × List Path × List Path :=
  match r with
  | .strings vs => (st.1 ++ vs, st.2.1, st.2.2)
  | .nodesR ns =>
    ns.foldl
      (fun st2 p =>
        if st2.2.2.contains p then st2
        else (st2.1, st2.2.1 ++ [p], st2.2.2 ++ [p]))
      st

/-- Source `Selector.xpath(query)`: split on top-level `|`; with more
than one part, evaluate each trimmed part and combine (strings
concatenated, nodes de-duplicated by identity); if any part produced
strings the result is a `TextSelector` over all strings, else a
`Selector` over the de-duplicated nodes.  A single part is evaluated
directly. -/
def selXpath (root : DNode) (s : Sel) (query : Str) : Sel :=
  let unionParts := splitXPathUnion query
  if 1 < unionParts.length then
    let st := unionParts.foldl
      (fun st part =>
        selUnionAccum (selEvaluateSingleXPath root s (trimStr part)) st)
      (([] : List Str), ([] : List Path), ([] : List Path))
    if st.1 ≠ [] then .strs st.1
    else .nodes st.2.1
  else
    match selEvaluateSingleXPath root s query with
    | .strings vs => .strs vs
    | .nodesR ns => .nodes ns

/-- Whether a node is an element (the `nodeType === 1` test of the
serialization helpers). -/
def isElemNode : DNode → Bool
  | .elem _ _ _ => true
  | _ => false

/-- Modelled from the spec: `doc.documentElement?.outerHTML ?? null` of
the external tree provider.  The provider's document element is absent
when the document has no element child; otherwise its outer markup is
the concatenation of the serialized top-level siblings — for a
single-rooted document that is exactly the root element's markup, and
for a multi-top-level fragment the spec (§4.4) states the sibling
markup is concatenated. -/
def docElementOuterHTML (kids : List DNode) : Option Str :=
  if kids.any isElemNode then
    some (innerHTMLL kids)
  else none

/-- Source `Selector.html()`: for a document first match,
`documentElement?.outerHTML ?? null`; for an element, `innerHTML`;
otherwise null.  A `TextSelector` inherits this over its empty node
list, so it yields null. -/
def selHtml (root : DNode) (s : Sel) : Option Str :=
  match selNodes s with
  | [] => none
  | p :: _ =>
    match resolve root p with
    | some (.doc kids) => docElementOuterHTML kids
    | some (.elem t attrs ks) => some (innerHTML (.elem t attrs ks))
    | _ => none

/-- Source `Selector.outerHtml()`: for a document first match,
`documentElement?.outerHTML ?? null`; for an element, `outerHTML`;
otherwise null. -/
def selOuterHtml (root : DNode) (s : Sel) : Option Str :=
  match selNodes s with
  | [] => none
  | p :: _ =>
    match resolve root p with
    | some (.doc kids) => docElementOuterHTML kids
    | some (.elem t attrs ks) => some (outerHTML (.elem t attrs ks))
    | _ => none

/-! ## Position-predicate characterization (toward C3) -/

theorem jsIndexOfAux_get (xs : List Path) (hnd : xs.Nodup) :
    ∀ (j : Nat) (hj : j < xs.length) (i : Nat),
      jsIndexOfAux xs (xs.get ⟨j, hj⟩) i = (i : Int) + j := by
  induction xs with
  | nil => intro j hj; simp at hj
  | cons x xs ih =>
    intro j hj i
    match j with
    | 0 => simp [jsIndexOfAux]
    | j + 1 =>
      have hmem : xs.get ⟨j, by simpa using hj⟩ ∈ xs := List.get_mem _ _ _
      have hx : x ≠ xs.get ⟨j, by simpa using hj⟩ := by
        intro he
        exact (List.nodup_cons.mp hnd).1 (he ▸ hmem)
      have := ih (List.nodup_cons.mp hnd).2 j (by simpa using hj) (i + 1)
      simp only [jsIndexOfAux, List.get_cons_succ]
      rw [if_neg hx]
      rw [this]
      push_cast
      ring

theorem jsIndexOf_get (xs : List Path) (hnd : xs.Nodup) (j : Nat)
    (hj : j < xs.length) : jsIndexOf xs (xs.get ⟨j, hj⟩) = j := by
  have := jsIndexOfAux_get xs hnd j hj 0
  simpa [jsIndexOf] using this

theorem filter_by_index :
    ∀ (ns : List Path) (f : Path → Int) (m : Int),
      (∀ (j : Nat) (hj : j < ns.length), f (ns.get ⟨j, hj⟩) = j) →
      ns.filter (fun x => f x == m) =
        if 0 ≤ m then (ns.drop m.toNat).take 1 else [] := by
  intro ns
  induction ns with
  | nil => intro f m hf; simp
  | cons a t ih =>
    intro f m hf
    have hfa : f a = 0 := hf 0 (by simp)
    have hft : ∀ (j : Nat) (hj : j < t.length),
        (fun x => f x - 1) (t.get ⟨j, hj⟩) = j := by
      intro j hj
      have h5 := hf (j + 1) (by simpa using Nat.succ_lt_succ hj)
      simp only [List.get_cons_succ] at h5
      simp only [List.get_eq_getElem] at h5 ⊢
      omega
    have hcong : t.filter (fun x => f x == m)
        = t.filter (fun x => (f x - 1) == (m - 1)) := by
      apply List.filter_congr
      intro x _
      have : (f x == m) = ((f x - 1) == (m - 1)) := by
        by_cases h : f x = m
        · simp [h]
        · have h2 : f x - 1 ≠ m - 1 := by omega
          simp [h, h2]
      rw [this]
    rw [List.filter_cons]
    by_cases hm : m = 0
    · subst hm
      rw [if_pos (by simp [hfa])]
      rw [hcong, ih (fun x => f x - 1) (0 - 1) hft]
      norm_num
    · rw [if_neg (by simp [hfa, beq_iff_eq]; omega)]
      rw [hcong, ih (fun x => f x - 1) (m - 1) hft]
      by_cases hm2 : 0 ≤ m
      · have hm3 : 1 ≤ m := by omega
        rw [if_pos (by omega), if_pos hm2]
        have : m.toNat = (m - 1).toNat + 1 := by omega
        rw [this]
        simp
      · rw [if_neg (by omega), if_neg hm2]

theorem filter_by_posGt :
    ∀ (ns : List Path) (f : Path → Int) (v : Nat),
      (∀ (j : Nat) (hj : j < ns.length), f (ns.get ⟨j, hj⟩) = j) →
      ns.filter (fun x => compareNumbers (f x + 1) .gt v) = ns.drop v := by
  intro ns
  induction ns with
  | nil => intro f v hf; simp
  | cons a t ih =>
    intro f v hf
    have hfa : f a = 0 := hf 0 (by simp)
    have hft : ∀ (j : Nat) (hj : j < t.length),
        (fun x => f x - 1) (t.get ⟨j, hj⟩) = j := by
      intro j hj
      have h5 := hf (j + 1) (by simpa using Nat.succ_lt_succ hj)
      simp only [List.get_cons_succ] at h5
      simp only [List.get_eq_getElem] at h5 ⊢
      omega
    rw [List.filter_cons]
    match v with
    | 0 =>
      rw [if_pos (by simp [compareNumbers, hfa])]
      have hall : t.filter (fun x => compareNumbers (f x + 1) .gt ((0 : Nat) : Int)) = t := by
        apply List.filter_eq_self.mpr
        intro x hx
        obtain ⟨⟨j, hj⟩, hg⟩ := List.mem_iff_get.mp hx
        have h6 := hft j hj
        simp only [List.get_eq_getElem] at h6
        subst hg
        simp only [compareNumbers, List.get_eq_getElem, decide_eq_true_eq]
        omega
      rw [hall]
      rfl
    | v + 1 =>
      rw [if_neg (by simp [compareNumbers, hfa])]
      have hcong : t.filter (fun x => compareNumbers (f x + 1) .gt ((v + 1 : Nat) : Int))
          = t.filter (fun x => compareNumbers ((f x - 1) + 1) .gt ((v : Nat) : Int)) := by
        apply List.filter_congr
        intro x _
        have : (compareNumbers (f x + 1) .gt ((v + 1 : Nat) : Int))
            = (compareNumbers ((f x - 1) + 1) .gt ((v : Nat) : Int)) := by
          simp [compareNumbers]
        rw [this]
      rw [hcong, ih (fun x => f x - 1) v hft]
      rfl

/-! ## Union de-duplication characterization (toward C4, C9) -/

/-- The seen-set insertion loop of the union handling, as a fold. -/
def dedupInto (acc : List Path) (ns : List Path) : List Path :=
  ns.foldl (fun a p => if a.contains p then a else a ++ [p]) acc

/-- First-seen de-duplication, the specification-side description of the
`Set<Node>` loop: keep each node's first occurrence, in order. -/
def dedupFirst : List Path → List Path
  | [] => []
  | p :: ps => p :: dedupFirst (ps.filter (fun x => !(x == p)))
termination_by l => l.length
decreasing_by
  simp
  exact Nat.lt_succ_of_le (List.length_filter_le _ _)

theorem dedupInto_eq :
    ∀ (ns acc : List Path),
      dedupInto acc ns = acc ++ dedupFirst (ns.filter (fun p => !acc.contains p)) := by
  intro ns
  induction ns with
  | nil => intro acc; simp [dedupInto, dedupFirst]
  | cons p ps ih =>
    intro acc
    by_cases hc : p ∈ acc
    · have hcb : acc.contains p = true := by simpa using hc
      have h1 : dedupInto acc (p :: ps) = dedupInto acc ps := by
        simp only [dedupInto, List.foldl_cons]
        rw [if_pos hcb]
      rw [h1, ih]
      have h2 : (p :: ps).filter (fun x => !acc.contains x)
          = ps.filter (fun x => !acc.contains x) := by
        rw [List.filter_cons]
        simp [hc]
      rw [h2]
    · have hcb : ¬ acc.contains p = true := by simpa using hc
      have h1 : dedupInto acc (p :: ps) = dedupInto (acc ++ [p]) ps := by
        simp only [dedupInto, List.foldl_cons]
        rw [if_neg hcb]
      rw [h1, ih]
      have h2 : (p :: ps).filter (fun x => !acc.contains x)
          = p :: ps.filter (fun x => !acc.contains x) := by
        rw [List.filter_cons]
        simp [hc]
      rw [h2]
      rw [dedupFirst]
      have h3 : ps.filter (fun x => !(acc ++ [p]).contains x)
          = (ps.filter (fun x => !acc.contains x)).filter (fun x => !(x == p)) := by
        rw [List.filter_filter]
        apply List.filter_congr
        intro x _
        by_cases h1 : x ∈ acc <;> by_cases h2 : x = p <;> simp [h1, h2]
      rw [h3]
      simp

theorem dedupInto_nil (ns : List Path) : dedupInto [] ns = dedupFirst ns := by
  rw [dedupInto_eq]
  simp

def stringsOfRes : SingleRes → List Str
  | .strings vs => vs
  | .nodesR _ => []

def nodesOfRes : SingleRes → List Path
  | .strings _ => []
  | .nodesR ns => ns

theorem unionNodesFold (ns : List Path) :
    ∀ (S : List Str) (N : List Path),
      ns.foldl
        (fun st2 p =>
          if st2.2.2.contains p then st2
          else (st2.1, st2.2.1 ++ [p], st2.2.2 ++ [p]))
        (S, N, N)
      = (S, dedupInto N ns, dedupInto N ns) := by
  induction ns with
  | nil => intro S N; simp [dedupInto]
  | cons p ps ih =>
    intro S N
    by_cases hc : N.contains p
    · have h1 : dedupInto N (p :: ps) = dedupInto N ps := by
        simp only [dedupInto, List.foldl_cons]
        rw [if_pos hc]
      rw [List.foldl_cons]
      rw [show (if (S, N, N).2.2.contains p then (S, N, N)
          else ((S, N, N).1, (S, N, N).2.1 ++ [p], (S, N, N).2.2 ++ [p]))
          = (S, N, N) from by rw [if_pos hc]]
      rw [ih S N, h1]
    · have h1 : dedupInto N (p :: ps) = dedupInto (N ++ [p]) ps := by
        simp only [dedupInto, List.foldl_cons]
        rw [if_neg hc]
      rw [List.foldl_cons]
      rw [show (if (S, N, N).2.2.contains p then (S, N, N)
          else ((S, N, N).1, (S, N, N).2.1 ++ [p], (S, N, N).2.2 ++ [p]))
          = (S, N ++ [p], N ++ [p]) from by rw [if_neg hc]]
      rw [ih S (N ++ [p]), h1]

theorem selUnionAccum_eq (r : SingleRes) (S : List Str) (N : List Path) :
    selUnionAccum r (S, N, N)
      = (S ++ stringsOfRes r, dedupInto N (nodesOfRes r),
         dedupInto N (nodesOfRes r)) := by
  cases r with
  | strings vs => simp [selUnionAccum, stringsOfRes, nodesOfRes, dedupInto]
  | nodesR ns =>
    simp only [selUnionAccum, stringsOfRes, nodesOfRes, List.append_nil]
    exact unionNodesFold ns S N

theorem dedupInto_append (N : List Path) (xs ys : List Path) :
    dedupInto (dedupInto N xs) ys = dedupInto N (xs ++ ys) := by
  simp [dedupInto, List.foldl_append]

theorem selUnionFold (F : Str → SingleRes) :
    ∀ (parts : List Str) (S : List Str) (N : List Path),
      parts.foldl (fun st part => selUnionAccum (F part) st) (S, N, N)
      = (S ++ (parts.map (fun p => stringsOfRes (F p))).flatten,
         dedupInto N ((parts.map (fun p => nodesOfRes (F p))).flatten),
         dedupInto N ((parts.map (fun p => nodesOfRes (F p))).flatten)) := by
  intro parts
  induction parts with
  | nil => intro S N; simp [dedupInto]
  | cons part parts ih =>
    intro S N
    rw [List.foldl_cons, selUnionAccum_eq,
      ih (S ++ stringsOfRes (F part)) (dedupInto N (nodesOfRes (F part)))]
    simp [dedupInto_append]

/-- The general characterization of `Selector.xpath` on a union query:
strings from all branches concatenate with no de-duplication; node
results are first-seen de-duplicated; any string result makes the
Selector string-backed and discards all nodes. -/
theorem selXpath_union_spec (root : DNode) (s : Sel) (query : Str)
    (h : 1 < (splitXPathUnion query).length) :
    selXpath root s query =
      (if (((splitXPathUnion query).map
            (fun part => selEvaluateSingleXPath root s (trimStr part))).map
              stringsOfRes).flatten ≠ [] then
        Sel.strs ((((splitXPathUnion query).map
          (fun part => selEvaluateSingleXPath root s (trimStr part))).map
            stringsOfRes).flatten)
      else
        Sel.nodes (dedupFirst ((((splitXPathUnion query).map
          (fun part => selEvaluateSingleXPath root s (trimStr part))).map
            nodesOfRes).flatten))) := by
  simp only [selXpath, h, if_true]
  have := selUnionFold
    (fun part => selEvaluateSingleXPath root s (trimStr part))
    (splitXPathUnion query) [] []
  rw [this]
  simp only [List.map_map, Function.comp_def, List.nil_append, dedupInto_nil]

/-! ## Regular-expression projection (src: `extractRegex`, `Selector.re`)

The regular-expression engine is an external collaborator (spec §6:
"standard pattern/match semantics with capturing groups").  It is
modelled here for a subset of the JS grammar sufficient for the
extraction logic under study: literal characters, capturing groups
`( )`, and non-capturing groups `(?: )`. -/

/-- Modelled from the spec: the abstract syntax of the modelled regex
subset; `group` carries its 1-based capture index in source order. -/
inductive RAst where
  | eps
  | ch (c : Char)
  | seq (a b : RAst)
  | group (idx : Nat) (inner : RAst)
  | ncgroup (inner : RAst)
  deriving DecidableEq, Repr

/-- Metacharacters outside the modelled subset. -/
def regexMeta : List Char :=
  ['\\', '|', '?', '*', '+', '[', ']', '{', '}', '^', '$', '.']

/-- Modelled from the spec: parse a pattern source (fueled; `g` is the
next capture-group index).  Returns the sequence parsed up to a `)` or
the end, the rest, and the next group index. -/
def parseRegexF : Nat → Str → Nat → Option (RAst × Str × Nat)
  | 0, _, _ => none
  | fuel + 1, s, g =>
    match s with
    | [] => some (.eps, [], g)
    | ')' :: rest => some (.eps, ')' :: rest, g)
    | '(' :: rest =>
      let isNC := (lit "?:").isPrefixOf rest
      let body := if isNC then rest.drop 2 else rest
      match parseRegexF fuel body (if isNC then g else g + 1) with
      | some (inner, ')' :: rest2, g2) =>
        let node := if isNC then RAst.ncgroup inner else RAst.group g inner
        match parseRegexF fuel rest2 g2 with
        | some (tailAst, rest3, g3) => some (.seq node tailAst, rest3, g3)
        | none => none
      | _ => none
    | c :: rest =>
      if c ∈ regexMeta then none
      else
        match parseRegexF fuel rest g with
        | some (tailAst, rest2, g2) => some (.seq (.ch c) tailAst, rest2, g2)
        | none => none

/-- Parse a whole pattern source; returns the AST and the number of
capture groups, or `none` outside the modelled subset. -/
def parseRegexSrc (source : Str) : Option (RAst × Nat) :=
  match parseRegexF (source.length + 1) source 1 with
  | some (ast, [], g) => some (ast, g - 1)
  | _ => none

/-- Modelled from the spec: match an AST at the start of `s`, returning
the consumed prefix and the `(index, capture)` assignments. -/
def matchR : RAst → Str → Option (Str × List (Nat × Str))
  | .eps, _ => some ([], [])
  | .ch c, s =>
    match s with
    | c2 :: _ => if c2 = c then some ([c], []) else none
    | [] => none
  | .seq a b, s =>
    match matchR a s with
    | some (m1, caps1) =>
      match matchR b (s.drop m1.length) with
      | some (m2, caps2) => some (m1 ++ m2, caps1 ++ caps2)
      | none => none
    | none => none
  | .group i inner, s =>
    match matchR inner s with
    | some (m, caps) => some (m, caps ++ [(i, m)])
    | none => none
  | .ncgroup inner, s => matchR inner s

/-- Modelled from the spec: the leftmost match — try each start
position in order (`RegExp.prototype.exec` semantics). -/
def execFind (ast : RAst) : Str → Option (Nat × Str × List (Nat × Str))
  | [] =>
    match matchR ast [] with
    | some (m, caps) => some (0, m, caps)
    | none => none
  | c :: rest =>
    match matchR ast (c :: rest) with
    | some (m, caps) => some (0, m, caps)
    | none =>
      match execFind ast rest with
      | some (i, m, caps) => some (i + 1, m, caps)
      | none => none

/-- The capture array `match[1..g]` of a JS match: per group index, the
captured value or undefined. -/
def groupsFor (g : Nat) (caps : List (Nat × Str)) : List (Option Str) :=
  (List.range g).map (fun i => (caps.find? (fun c => c.1 == i + 1)).map (·.2))

structure JsMatch where
  full : Str
  groups : List (Option Str)
  deriving DecidableEq, Repr

/-- Modelled from the spec: `String.prototype.match` with a global
regex — successive leftmost matches, advancing past each match and (per
`AdvanceStringIndex`) by one position past a zero-length match, so it
always terminates.  Used only by the no-groups branch of
`extractRegex`. -/
def matchAllF (ast : RAst) (g : Nat) : Nat → Str → List JsMatch
  | 0, _ => []
  | fuel + 1, s =>
    match execFind ast s with
    | none => []
    | some (i, m, caps) =>
      ⟨m, groupsFor g caps⟩ :: matchAllF ast g fuel (s.drop (i + max 1 m.length))

def matchAll (ast : RAst) (g : Nat) (text : Str) : List JsMatch :=
  matchAllF ast g (text.length + 1) text

/-- Source `while ((match = globalRegex.exec(text)) !== null)` of the
group branch: JS `exec` sets `lastIndex` to the end of the match, so a
zero-length match leaves `lastIndex` unchanged and the source loop
never terminates.  Fueled: `none` models that divergence.
`text.length + 1` fuel suffices for every terminating run (each
iteration past a non-empty match strictly shortens the remaining
string, see `execFind_le`), and a `none` at that fuel is `none` at
every fuel (`execLoopF_none_stable`), so `execLoop` returns `none`
exactly when the source loop never returns. -/
def execLoopF (ast : RAst) (g : Nat) : Nat → Str → Option (List JsMatch)
  | 0, _ => none
  | fuel + 1, s =>
    match execFind ast s with
    | none => some []
    | some (i, m, caps) =>
      (execLoopF ast g fuel (s.drop (i + m.length))).map
        (fun rest => ⟨m, groupsFor g caps⟩ :: rest)

def execLoop (ast : RAst) (g : Nat) (text : Str) : Option (List JsMatch) :=
  execLoopF ast g (text.length + 1) text

/-- A match consumes no more than the string it matched against. -/
theorem matchR_length_le : ∀ (ast : RAst) (s m : Str)
    (caps : List (Nat × Str)),
    matchR ast s = some (m, caps) → m.length ≤ s.length := by
  intro ast
  induction ast with
  | eps =>
    intro s m caps h
    simp only [matchR, Option.some.injEq, Prod.mk.injEq] at h
    obtain ⟨hm, hc⟩ := h
    subst hm
    simp
  | ch c =>
    intro s m caps h
    cases s with
    | nil => simp [matchR] at h
    | cons c2 rest =>
      simp only [matchR] at h
      split at h
      · simp only [Option.some.injEq, Prod.mk.injEq] at h
        obtain ⟨hm, hc⟩ := h
        subst hm
        simp
      · simp at h
  | seq a b iha ihb =>
    intro s m caps h
    simp only [matchR] at h
    split at h
    next m1 caps1 h1 =>
      split at h
      next m2 caps2 h2 =>
        simp only [Option.some.injEq, Prod.mk.injEq] at h
        obtain ⟨hm, hc⟩ := h
        subst hm
        have l1 := iha s m1 caps1 h1
        have l2 := ihb (s.drop m1.length) m2 caps2 h2
        rw [List.length_drop] at l2
        rw [List.length_append]
        omega
      next h2 => simp at h
    next h1 => simp at h
  | group i inner ih =>
    intro s m caps h
    simp only [matchR] at h
    split at h
    next m1 c1 h1 =>
      simp only [Option.some.injEq, Prod.mk.injEq] at h
      obtain ⟨hm, hc⟩ := h
      subst hm
      exact ih s m1 c1 h1
    next h1 => simp at h
  | ncgroup inner ih =>
    intro s m caps h
    exact ih s m caps h

/-- A leftmost match lies inside the searched string: its start index
plus its length is bounded by the string's length. -/
theorem execFind_le : ∀ (s : Str) (ast : RAst) (i : Nat) (m : Str)
    (caps : List (Nat × Str)),
    execFind ast s = some (i, m, caps) → i + m.length ≤ s.length := by
  intro s
  induction s with
  | nil =>
    intro ast i m caps h
    simp only [execFind] at h
    split at h
    next m1 c1 h1 =>
      simp only [Option.some.injEq, Prod.mk.injEq] at h
      obtain ⟨hi, hm, hc⟩ := h
      subst hi
      subst hm
      have hb := matchR_length_le ast [] m1 c1 h1
      simpa using hb
    next h1 => simp at h
  | cons c rest ih =>
    intro ast i m caps h
    simp only [execFind] at h
    split at h
    next m1 c1 h1 =>
      simp only [Option.some.injEq, Prod.mk.injEq] at h
      obtain ⟨hi, hm, hc⟩ := h
      subst hi
      subst hm
      have hb := matchR_length_le ast (c :: rest) m1 c1 h1
      simpa using hb
    next h1 =>
      split at h
      next i2 m2 c2 h2 =>
        simp only [Option.some.injEq, Prod.mk.injEq] at h
        obtain ⟨hi, hm, hc⟩ := h
        subst hi
        subst hm
        have hb := ih ast i2 m2 c2 h2
        simp only [List.length_cons]
        omega
      next h2 => simp at h

/-- A zero-length leftmost match at index 0 repeats forever: the exec
loop returns `none` at every fuel. -/
theorem execLoopF_stuck (ast : RAst) (g : Nat) (s : Str)
    (caps : List (Nat × Str)) (hf : execFind ast s = some (0, [], caps)) :
    ∀ fuel, execLoopF ast g fuel s = none := by
  intro fuel
  induction fuel with
  | zero => rfl
  | succ n ih =>
    simp only [execLoopF, hf]
    simp [ih]

/-- With fuel above the string length, `none` is no fuel artifact: a
run that exhausts `s.length + 1` fuel has hit a zero-length match and
returns `none` at every fuel, exactly as the source loop never
returns. -/
theorem execLoopF_none_stable (ast : RAst) (g : Nat) :
    ∀ (fuel : Nat) (s : Str), s.length < fuel →
      execLoopF ast g fuel s = none →
      ∀ fuel2, execLoopF ast g fuel2 s = none := by
  intro fuel
  induction fuel with
  | zero => intro s h; omega
  | succ n ih =>
    intro s hlen hnone fuel2
    simp only [execLoopF] at hnone
    split at hnone
    next hf => simp at hnone
    next i m caps hf =>
      by_cases hz : i + m.length = 0
      · have hi : i = 0 := by omega
        have hm : m = [] := List.eq_nil_of_length_eq_zero (by omega)
        subst hi
        subst hm
        exact execLoopF_stuck ast g s caps hf fuel2
      · have hb := execFind_le s ast i m caps hf
        have hrec : execLoopF ast g n (s.drop (i + m.length)) = none := by
          cases hr : execLoopF ast g n (s.drop (i + m.length)) with
          | none => rfl
          | some r => rw [hr] at hnone; simp at hnone
        have hlt : (s.drop (i + m.length)).length < n := by
          rw [List.length_drop]
          omega
        have hall := ih (s.drop (i + m.length)) hlt hrec
        cases fuel2 with
        | zero => rfl
        | succ k =>
          simp only [execLoopF, hf]
          simp [hall]

/-- A JS `RegExp` as consumed by `extractRegex`: its source text and
global flag (a string pattern becomes `new RegExp(pattern, "g")`). -/
structure JsRegex where
  source : Str
  global : Bool
  deriving DecidableEq, Repr

/-- The source's group-detection heuristic:
`regex.source.includes("(") && !regex.source.match(/^\(\?:/)`. -/
def hasGroupsHeuristic (source : Str) : Bool :=
  source.contains '(' && !((lit "(?:").isPrefixOf source)

/-- Source `extractRegex(pattern, text)`: upgrade to a global regex,
then — when the source-text heuristic detects groups — run the
`while (exec)` loop collecting the defined entries `match[1..]` of
every match, `none` when that loop never terminates (a zero-length
match); otherwise collect the full matches (`text.match(globalRegex)`,
which always terminates). -/
def extractRegex (re : JsRegex) (text : Str) : Option (List Str) :=
  let globalRegex : JsRegex :=
    if re.global then re else { source := re.source, global := true }
  match parseRegexSrc globalRegex.source with
  | none => some []
  | some (ast, g) =>
    if hasGroupsHeuristic re.source then
      (execLoop ast g text).map
        (fun ms => (ms.map (fun m => m.groups.filterMap id)).flatten)
    else
      some ((matchAll ast g text).map (fun m => m.full))

/-- Source `Selector.re(pattern)`: apply `extractRegex` to every
extracted string, flattening in order; the resulting mapped selector is
ok iff any match was produced.  `none` when extraction diverges on any
value. -/
def selRe (root : DNode) (s : Sel) (re : JsRegex) : Option (List Str × Bool) :=
  match (selGetall root s).mapM (fun v => extractRegex re v) with
  | none => none
  | some rss => some (rss.flatten, decide (0 < rss.flatten.length))

/-! ## Concrete documents used by the claim instances -/

def liNode (s : Str) : DNode := .elem (lit "li") [] [.text s]

/-- `<ul><li>one</li><li>two</li><li>three</li><li>four</li></ul>`. -/
def liDoc : DNode :=
  .doc [.elem (lit "ul") []
    [liNode (lit "one"), liNode (lit "two"),
     liNode (lit "three"), liNode (lit "four")]]

/-- Two `ul` lists with two `li` each. -/
def twoListDoc : DNode :=
  .doc [.elem (lit "div") []
    [.elem (lit "ul") [] [liNode (lit "a"), liNode (lit "b")],
     .elem (lit "ul") [] [liNode (lit "c"), liNode (lit "d")]]]

/-- `<html><h1>Title</h1></html>`. -/
def h1Doc : DNode :=
  .doc [.elem (lit "html") [] [.elem (lit "h1") [] [.text (lit "Title")]]]

/-- `<a href="/x">t</a>`. -/
def hrefDoc : DNode :=
  .doc [.elem (lit "a") [(lit "href", lit "/x")] [.text (lit "t")]]

/-- `<p>  </p>` — a paragraph holding a whitespace-only text node. -/
def wsDoc : DNode := .doc [.elem (lit "p") [] [.text (lit "  ")]]

def divElem : DNode := .elem (lit "div") [] [.text (lit "content")]

/-- `<div>content</div>` as a whole document. -/
def divDoc : DNode := .doc [divElem]

/-- `<div></div>` with no attributes. -/
def plainDivDoc : DNode := .doc [.elem (lit "div") [] []]

/-! ## The claims -/

/-- The first element child of a document's child list: the external
tree provider's `documentElement`. -/
def documentElement (kids : List DNode) : Option DNode :=
  kids.find? isElemNode

/-- Claim C5 as stated by the spec: the existence check treats a
missing attribute as absent, while the comparison predicates
(equality, inequality, contains, starts-with, ends-with) treat a
missing attribute as the empty string — in particular an equality test
against the empty value would hold on an element without the
attribute. -/
def claimC5Stated : Prop :=
  ∀ (root : DNode) (node : Path) (ns : List Path) (tag : Str)
    (attrs : List (Str × Str)) (kids : List DNode) (name value : Str),
    resolve root node = some (.elem tag attrs kids) →
    getAttribute (.elem tag attrs kids) name = none →
    evaluatePredicate root node (.attrExists name) ns = false ∧
    evaluatePredicate root node (.attrEquals name value) ns
      = (value == ([] : Str)) ∧
    evaluatePredicate root node (.attrNotEquals name value) ns
      = !(value == ([] : Str)) ∧
    evaluatePredicate root node (.attrContains name value) ns
      = jsIncludes ([] : Str) value ∧
    evaluatePredicate root node (.attrStartsWith name value) ns
      = value.isPrefixOf ([] : Str) ∧
    evaluatePredicate root node (.attrEndsWith name value) ns
      = value.isSuffixOf ([] : Str)

/-- Claim C6 as stated by the spec: extraction is switched on whether
the pattern actually has one or more capturing groups. -/
def claimC6Stated : Prop :=
  ∀ (re : JsRegex) (text : Str) (ast : RAst) (g : Nat),
    parseRegexSrc re.source = some (ast, g) →
    extractRegex re text
      = (if 1 ≤ g then
          (execLoop ast g text).map
            (fun ms => (ms.map (fun m => m.groups.filterMap id)).flatten)
        else some ((matchAll ast g text).map (fun m => m.full)))

/-- Claim C8 as stated by the spec: on a whole-document first match,
`html()` returns the document element's inner markup and `outerHtml()`
its outer markup. -/
def claimC8Stated : Prop :=
  ∀ (root : DNode) (s : Sel) (p : Path) (rest : List Path)
    (kids : List DNode) (de : DNode),
    selNodes s = p :: rest →
    resolve root p = some (.doc kids) →
    documentElement kids = some de →
    selHtml root s = some (innerHTML de) ∧
    selOuterHtml root s = some (outerHTML de)

/-- Claim C1: for every Selector state (node-backed or string-backed),
the boolean `ok` equals `count > 0`.  Every state reachable through
the public operations is one of these two. -/
theorem claim_C1_ok_iff_count : ∀ s : Sel, selOk s = decide (0 < selCount s) := by
  intro s
  cases s <;> rfl

unseal splitByOperatorAux in
/-- Claim C2: `parseXPath` is total — for every input string it
returns a step list and an optional dropped tail, never failing; on
adversarial inputs (leading garbage, an unterminated bracket) the
unconsumed tail is dropped and reported in the second component. -/
theorem claim_C2_parse_total :
    (∀ expr : Str, ∃ steps dropped, parseXPath expr = some (steps, dropped)) ∧
    parseXPath (lit "@@garbage") = some ([], some (lit "@@garbage")) ∧
    (parseXPath (lit "//li[@x=unclosed")).map Prod.snd
      = some (some (lit "[@x=unclosed")) := by
  refine ⟨?_, by decide, by decide⟩
  intro expr
  have hlt : (trimStr expr).length < expr.length + 1 :=
    Nat.lt_succ_of_le (trimStr_length_le expr)
  have h := parseXPathF_total (expr.length + 1) (trimStr expr) hlt
  obtain ⟨⟨steps, dropped⟩, hr⟩ := Option.isSome_iff_exists.mp h
  exact ⟨steps, dropped, hr⟩

unseal splitByOperatorAux in
/-- Claim C3: position predicates are 1-indexed against the
node-test-filtered candidate list of the axis application: a bare
index `k` keeps the `k`-th candidate, `last()` keeps the final one,
`position() > v` keeps the candidates after the `v`-th; concretely,
on a four-item list `//li[position() > 1]` yields items 2–4 in order
and `//li[last()]` exactly the final item, and on two separate lists
`//ul/li[1]` keeps the first item of each axis application. -/
theorem claim_C3_position_semantics (root : DNode) (ns : List Path)
    (k v : Nat) (hnd : ns.Nodup) :
    applyPredicates root ns [.position k]
      = (if 1 ≤ k then (ns.drop (k - 1)).take 1 else []) ∧
    applyPredicates root ns [.last] = (ns.drop (ns.length - 1)).take 1 ∧
    applyPredicates root ns [.positionCompare .gt v] = ns.drop v ∧
    evaluateXPath liDoc (lit "//li[position() > 1]") [[]]
      = [.node [0, 1], .node [0, 2], .node [0, 3]] ∧
    evaluateXPath liDoc (lit "//li[last()]") [[]] = [.node [0, 3]] ∧
    evaluateXPath twoListDoc (lit "//ul/li[1]") [[]]
      = [.node [0, 0, 0], .node [0, 1, 0]] := by
  have hf : ∀ (j : Nat) (hj : j < ns.length),
      jsIndexOf ns (ns.get ⟨j, hj⟩) = (j : Int) :=
    fun j hj => jsIndexOf_get ns hnd j hj
  refine ⟨?_, ?_, ?_, by decide, by decide, by decide⟩
  · have h1 : applyPredicates root ns [.position k]
        = ns.filter (fun x => jsIndexOf ns x == ((k : Int) - 1)) := rfl
    have h2 : ns.filter (fun x => jsIndexOf ns x == ((k : Int) - 1))
        = if 0 ≤ (k : Int) - 1 then
            (ns.drop ((k : Int) - 1).toNat).take 1 else [] :=
      filter_by_index ns (fun x => jsIndexOf ns x) ((k : Int) - 1) hf
    rw [h1, h2]
    by_cases hk : 1 ≤ k
    · have ht : ((k : Int) - 1).toNat = k - 1 := by omega
      rw [ht, if_pos (show (0 : Int) ≤ (k : Int) - 1 by omega), if_pos hk]
    · rw [if_neg (show ¬ (0 : Int) ≤ (k : Int) - 1 by omega), if_neg hk]
  · have h1 : applyPredicates root ns [.last]
        = ns.filter (fun x => jsIndexOf ns x == ((ns.length : Int) - 1)) := rfl
    have h2 : ns.filter (fun x => jsIndexOf ns x == ((ns.length : Int) - 1))
        = if 0 ≤ (ns.length : Int) - 1 then
            (ns.drop ((ns.length : Int) - 1).toNat).take 1 else [] :=
      filter_by_index ns (fun x => jsIndexOf ns x) ((ns.length : Int) - 1) hf
    rw [h1, h2]
    by_cases hn : ns.length = 0
    · rw [if_neg (show ¬ (0 : Int) ≤ (ns.length : Int) - 1 by omega)]
      rw [List.eq_nil_of_length_eq_zero hn]
      simp
    · have ht : ((ns.length : Int) - 1).toNat = ns.length - 1 := by omega
      rw [ht, if_pos (show (0 : Int) ≤ (ns.length : Int) - 1 by omega)]
  · have h1 : applyPredicates root ns [.positionCompare .gt v]
        = ns.filter (fun x => compareNumbers (jsIndexOf ns x + 1) .gt (v : Int)) :=
      rfl
    have h2 : ns.filter (fun x => compareNumbers (jsIndexOf ns x + 1) .gt (v : Int))
        = ns.drop v :=
      filter_by_posGt ns (fun x => jsIndexOf ns x) v hf
    rw [h1, h2]

/-- Witness for claim C3 at a concrete two-node list. -/
theorem claim_C3_witness :
    ([[0, 0], [0, 1]] : List Path).Nodup ∧
    applyPredicates liDoc ([[0, 0], [0, 1]] : List Path) [.position 2]
      = (if 1 ≤ 2 then
          (([[0, 0], [0, 1]] : List Path).drop (2 - 1)).take 1 else []) :=
  ⟨by decide,
    (claim_C3_position_semantics liDoc [[0, 0], [0, 1]] 2 0 (by decide)).1⟩

unseal splitByOperatorAux in
/-- Claim C4: a top-level union concatenates the branches' string
results without de-duplication and first-seen de-duplicates the node
results; concretely `//h1 | //h1` equals `//h1` as a node set while
`//h1::text | //h1::text` yields the text twice. -/
theorem claim_C4_union_dedup (root : DNode) (s : Sel) (query : Str)
    (h : 1 < (splitXPathUnion query).length) :
    (selXpath root s query =
      (if (((splitXPathUnion query).map
            (fun part => selEvaluateSingleXPath root s (trimStr part))).map
              stringsOfRes).flatten ≠ [] then
        Sel.strs ((((splitXPathUnion query).map
          (fun part => selEvaluateSingleXPath root s (trimStr part))).map
            stringsOfRes).flatten)
      else
        Sel.nodes (dedupFirst ((((splitXPathUnion query).map
          (fun part => selEvaluateSingleXPath root s (trimStr part))).map
            nodesOfRes).flatten)))) ∧
    selXpath h1Doc (.nodes [[]]) (lit "//h1 | //h1")
      = selXpath h1Doc (.nodes [[]]) (lit "//h1") ∧
    selXpath h1Doc (.nodes [[]]) (lit "//h1") = .nodes [[0, 0]] ∧
    selXpath h1Doc (.nodes [[]]) (lit "//h1::text | //h1::text")
      = .strs [lit "Title", lit "Title"] ∧
    selXpath h1Doc (.nodes [[]]) (lit "//h1::text") = .strs [lit "Title"] :=
  ⟨selXpath_union_spec root s query h, by decide, by decide, by decide,
    by decide⟩

/-- Witness for claim C4 at `//h1 | //h1`. -/
theorem claim_C4_witness :
    1 < (splitXPathUnion (lit "//h1 | //h1")).length ∧
    selXpath h1Doc (.nodes [[]]) (lit "//h1 | //h1")
      = selXpath h1Doc (.nodes [[]]) (lit "//h1") :=
  ⟨by decide,
    (claim_C4_union_dedup h1Doc (.nodes [[]]) (lit "//h1 | //h1")
      (by decide)).2.1⟩

/-- Claim C5 counterexample: the source's `getAttribute(name) === value`
is false for a missing attribute even against the empty string, so the
comparison predicates do not treat a missing attribute as the empty
string. -/
theorem claim_C5_counterexample : ¬ claimC5Stated := by
  intro h
  have h2 := (h plainDivDoc [0] [[0]] (lit "div") [] [] (lit "id") []
      rfl rfl).2.1
  revert h2
  decide

/-- Claim C5 (amended): a missing attribute makes the existence check,
the equality test (against every value, the empty string included) and
therefore not the inequality test false — inequality is true — while
contains, starts-with and ends-with compare against the empty string
(the source coalesces `null` to `""` only for those three). -/
theorem claim_C5_missing_attribute (root : DNode) (node : Path)
    (ns : List Path) (tag : Str) (attrs : List (Str × Str))
    (kids : List DNode) (name value : Str)
    (hres : resolve root node = some (.elem tag attrs kids))
    (hmiss : getAttribute (.elem tag attrs kids) name = none) :
    evaluatePredicate root node (.attrExists name) ns = false ∧
    evaluatePredicate root node (.attrEquals name value) ns = false ∧
    evaluatePredicate root node (.attrNotEquals name value) ns = true ∧
    evaluatePredicate root node (.attrContains name value) ns
      = jsIncludes ([] : Str) value ∧
    evaluatePredicate root node (.attrStartsWith name value) ns
      = value.isPrefixOf ([] : Str) ∧
    evaluatePredicate root node (.attrEndsWith name value) ns
      = value.isSuffixOf ([] : Str) := by
  refine ⟨?_, ?_, ?_, ?_, ?_, ?_⟩ <;> simp [evaluatePredicate, hres, hmiss]

/-- Witness for the amended claim C5 on an attribute-less `div`. -/
theorem claim_C5_witness :
    resolve plainDivDoc [0] = some (.elem (lit "div") [] []) ∧
    getAttribute (.elem (lit "div") [] []) (lit "id") = none ∧
    evaluatePredicate plainDivDoc [0]
      (.attrEquals (lit "id") (lit "x")) [[0]] = false :=
  ⟨rfl, rfl,
    (claim_C5_missing_attribute plainDivDoc [0] [[0]] (lit "div") [] []
      (lit "id") (lit "x") rfl rfl).2.1⟩

/-- Claim C6 counterexample: the pattern `a(?:b)` has no capturing
group, yet the source-text heuristic (`source.includes("(")` without a
leading `(?:`) takes the group branch, which then collects nothing:
the result is `[]`, not the full matches the claim requires. -/
theorem claim_C6_counterexample : ¬ claimC6Stated := by
  intro h
  have h2 := h ⟨lit "a(?:b)", false⟩ (lit "ab")
      (.seq (.ch 'a') (.seq (.ncgroup (.seq (.ch 'b') .eps)) .eps)) 0
      (by decide)
  revert h2
  decide

/-- Claim C6 (amended): extraction is switched on the source-text
heuristic `source.includes("(") && !/^\(\?:/`, not on the actual
presence of capturing groups — exec-loop group collection when the
heuristic holds (diverging on a zero-length match, at every fuel),
full matches otherwise — and a non-global pattern behaves as its
global counterpart. -/
theorem claim_C6_group_heuristic (re : JsRegex) (text : Str) (ast : RAst)
    (g : Nat) (hp : parseRegexSrc re.source = some (ast, g)) :
    (extractRegex re text
      = (if hasGroupsHeuristic re.source then
          (execLoop ast g text).map
            (fun ms => (ms.map (fun m => m.groups.filterMap id)).flatten)
        else some ((matchAll ast g text).map (fun m => m.full)))) ∧
    extractRegex re text
      = extractRegex { source := re.source, global := true } text ∧
    (∀ fuel, execLoopF (.seq (.group 1 .eps) .eps) 1 fuel (lit "a") = none) ∧
    extractRegex ⟨lit "()", true⟩ (lit "a") = none := by
  obtain ⟨src, gl⟩ := re
  dsimp only at hp ⊢
  refine ⟨?_, ?_, ?_, by decide⟩
  · cases gl <;> simp [extractRegex, hp]
  · cases gl <;> simp [extractRegex, hp]
  · intro fuel
    exact execLoopF_stuck (.seq (.group 1 .eps) .eps) 1 (lit "a") [(1, [])]
      (by decide) fuel

/-- Witness for the amended claim C6 on the single-group pattern
`(b)`. -/
theorem claim_C6_witness :
    parseRegexSrc (lit "(b)")
      = some (.seq (.group 1 (.seq (.ch 'b') .eps)) .eps, 1) ∧
    extractRegex ⟨lit "(b)", true⟩ (lit "abab") = some [lit "b", lit "b"] := by
  refine ⟨by decide, ?_⟩
  have h := (claim_C6_group_heuristic ⟨lit "(b)", true⟩ (lit "abab")
      (.seq (.group 1 (.seq (.ch 'b') .eps)) .eps) 1 (by decide)).1
  rw [h]
  decide

/-- Claim C7: `get(d)` returns the default `d` whenever `ok` is false,
and `get()` without a default returns the first extracted value when
one exists, else the null result. -/
theorem claim_C7_get_contract :
    (∀ (root : DNode) (s : Sel) (d : Str),
      selOk s = false → selGet root s (some d) = some d) ∧
    (∀ (root : DNode) (s : Sel),
      selGet root s none = (selGetall root s).head?) := by
  constructor
  · intro root s d hok
    cases s with
    | nodes ns =>
      cases ns with
      | nil => rfl
      | cons a t => simp [selOk] at hok
    | strs vs =>
      cases vs with
      | nil => rfl
      | cons a t => simp [selOk] at hok
  · intro root s
    cases s with
    | nodes ns =>
      cases hga : selGetall root (.nodes ns) with
      | nil => simp [selGet, hga]
      | cons v t => simp [selGet, hga]
    | strs vs => cases vs <;> rfl

/-- Witness for claim C7 on the empty node-backed Selector. -/
theorem claim_C7_witness :
    selOk (Sel.nodes []) = false ∧
    selGet wsDoc (Sel.nodes []) (some (lit "fallback"))
      = some (lit "fallback") :=
  ⟨by decide,
    claim_C7_get_contract.1 wsDoc (.nodes []) (lit "fallback") (by decide)⟩

/-- Claim C8 counterexample: for a whole-document Selector over
`<div>content</div>`, `html()` returns the document element's OUTER
markup (`<div>content</div>`), not its inner markup (`content`) as
claimed. -/
theorem claim_C8_counterexample : ¬ claimC8Stated := by
  intro h
  have h2 := (h divDoc (.nodes [[]]) [] [] [divElem] divElem rfl rfl rfl).1
  revert h2
  decide

/-- Claim C8 (amended): on a document first match, `html()` and
`outerHtml()` BOTH return `documentElement?.outerHTML ?? null`; on an
element first match, `html()` returns the inner and `outerHtml()` the
outer markup; and when the document has an element child, the document
element's outer markup is the concatenation of the serialized
top-level siblings. -/
theorem claim_C8_markup (root : DNode) (s : Sel) (p : Path)
    (rest : List Path) (hs : selNodes s = p :: rest) :
    (∀ kids, resolve root p = some (.doc kids) →
      selHtml root s = docElementOuterHTML kids ∧
      selOuterHtml root s = docElementOuterHTML kids) ∧
    (∀ tag attrs ks, resolve root p = some (.elem tag attrs ks) →
      selHtml root s = some (innerHTML (.elem tag attrs ks)) ∧
      selOuterHtml root s = some (outerHTML (.elem tag attrs ks))) ∧
    (∀ kids, kids.any isElemNode = true →
      docElementOuterHTML kids = some (innerHTMLL kids)) := by
  refine ⟨?_, ?_, ?_⟩
  · intro kids hres
    exact ⟨by simp [selHtml, hs, hres], by simp [selOuterHtml, hs, hres]⟩
  · intro tag attrs ks hres
    exact ⟨by simp [selHtml, hs, hres], by simp [selOuterHtml, hs, hres]⟩
  · intro kids hany
    simp [docElementOuterHTML, hany]

/-- Witness for the amended claim C8 on `<div>content</div>` as a
whole document. -/
theorem claim_C8_witness :
    selNodes (Sel.nodes [([] : Path)]) = ([] : Path) :: [] ∧
    resolve divDoc [] = some (.doc [divElem]) ∧
    (selHtml divDoc (.nodes [[]]) = docElementOuterHTML [divElem] ∧
     selOuterHtml divDoc (.nodes [[]]) = docElementOuterHTML [divElem]) :=
  ⟨rfl, rfl,
    (claim_C8_markup divDoc (.nodes [[]]) [] [] rfl).1 [divElem] rfl⟩

unseal splitByOperatorAux in
/-- Claim C9: whenever any union branch (or a single expression)
produces string results, the returned Selector holds exactly those
strings and every node result is discarded; concretely
`//a/@href | //a` keeps only the attribute string. -/
theorem claim_C9_strings_preferred :
    (∀ (root : DNode) (s : Sel) (query : Str),
      1 < (splitXPathUnion query).length →
      (((splitXPathUnion query).map
        (fun part => selEvaluateSingleXPath root s (trimStr part))).map
          stringsOfRes).flatten ≠ [] →
      selXpath root s query
        = Sel.strs ((((splitXPathUnion query).map
            (fun part => selEvaluateSingleXPath root s (trimStr part))).map
              stringsOfRes).flatten)) ∧
    (∀ (root : DNode) (s : Sel) (query : Str),
      (evaluateXPath root (parseXPathPseudo query).query
        (selNodes s)).filterMap strOfRes ≠ [] →
      selEvaluateSingleXPath root s query
        = .strings ((evaluateXPath root (parseXPathPseudo query).query
            (selNodes s)).filterMap strOfRes)) ∧
    selXpath hrefDoc (.nodes [[]]) (lit "//a/@href | //a")
      = .strs [lit "/x"] := by
  refine ⟨?_, ?_, by decide⟩
  · intro root s query h hstr
    rw [selXpath_union_spec root s query h, if_pos hstr]
  · intro root s query hstr
    simp only [selEvaluateSingleXPath]
    rw [if_pos hstr]

unseal splitByOperatorAux in
/-- Witness for claim C9 on an attribute sub-expression. -/
theorem claim_C9_witness :
    (evaluateXPath hrefDoc (parseXPathPseudo (lit "//a/@href")).query
      (selNodes (Sel.nodes [[]]))).filterMap strOfRes ≠ [] ∧
    selEvaluateSingleXPath hrefDoc (.nodes [[]]) (lit "//a/@href")
      = .strings ((evaluateXPath hrefDoc
          (parseXPathPseudo (lit "//a/@href")).query
          (selNodes (Sel.nodes [[]]))).filterMap strOfRes) :=
  ⟨by decide,
    claim_C9_strings_preferred.2.1 hrefDoc (.nodes [[]]) (lit "//a/@href")
      (by decide)⟩

/-- Claim C10: on a node-backed Selector `getall()` never contains the
empty string (every empty serialization is filtered out); concretely,
over `<p>  </p>` the Selector on the whitespace text node has
`ok = true` and `count = 1` while `getall()` is empty and `get(d)`
returns the default. -/
theorem claim_C10_getall_drops_empty :
    (∀ (root : DNode) (ns : List Path),
      ([] : Str) ∉ selGetall root (.nodes ns)) ∧
    selOk (Sel.nodes [[0, 0]]) = true ∧
    selCount (Sel.nodes [[0, 0]]) = 1 ∧
    selGetall wsDoc (.nodes [[0, 0]]) = [] ∧
    selGet wsDoc (.nodes [[0, 0]]) (some (lit "fallback"))
      = some (lit "fallback") := by
  refine ⟨?_, by decide, by decide, by decide, by decide⟩
  intro root ns hmem
  simp only [selGetall] at hmem
  have h2 := (List.mem_filter.mp hmem).2
  simp at h2

end Pluck
